import Mathlib

/-!
thePatternsGo: a verification development.

Shallow embedding of three packages of the repository:

* `behavioral/chainOfResponsibility` : the logger chain,
* `behavioral/command` : the command queue that flushes every third command,
* `concurrency/workersPool` : the dispatcher and its three-stage workers.

Go strings are embedded as Lean strings (valid UTF-8 text). The library
functions `strings.ToUpper` and `strings.ToLower` are not part of the
repository; every definition that calls one of them takes it as a parameter,
and `asciiToUpper` / `asciiToLower` are instances used for evaluation only.
-/

namespace Patterns

/-! ## Library instances used when evaluating -/

/-- An instance of `strings.ToUpper`, exact on ASCII text. -/
def asciiToUpper (s : String) : String := String.mk (s.data.map Char.toUpper)

/-- An instance of `strings.ToLower`, exact on ASCII text. -/
def asciiToLower (s : String) : String := String.mk (s.data.map Char.toLower)

/-- Go `strings.Contains(s, substr)`: `substr` occurs in `s` as a contiguous block. -/
def Contains (s substr : String) : Bool := decide (substr.data <:+: s.data)

/-! ## behavioral/chainOfResponsibility -/

namespace Chain

/-- What a call of `Next` does to the outside world, in program order. -/
inductive Event where
  /-- Text sent to standard output by `fmt.Printf`. -/
  | stdout (text : String)
  /-- One call `Writer.Write(bytes)` on the writer with the given identity. -/
  | write (writer : Nat) (bytes : String)
  deriving DecidableEq, Repr

/-- A value of interface type `ChainLogger`: the nil interface or one of the
three logger structs. `Writer` is the identity of the `io.Writer` held by a
`WriterLogger`, `none` for a nil writer. -/
inductive ChainLogger where
  | nil
  | FirstLogger (NextChain : ChainLogger)
  | SecondLogger (NextChain : ChainLogger)
  | WriterLogger (NextChain : ChainLogger) (Writer : Option Nat)
  deriving DecidableEq, Repr

/-- The three `Next` methods. The `nil` case is the guard
`if f.NextChain != nil` of each caller: nothing is called, nothing happens. -/
def Next (ToLower : String → String) : ChainLogger → String → List Event
  | .nil, _ => []
  | .FirstLogger n, s =>
      Event.stdout ("First Logger: " ++ s ++ "\n") :: Next ToLower n s
  | .SecondLogger n, s =>
      if Contains (ToLower s) "hello" then
        Event.stdout ("Second Logger: " ++ s) :: Next ToLower n s
      else
        [Event.stdout "Finishing in second logging\n\n"]
  | .WriterLogger n w, s =>
      (match w with
        | some k => [Event.write k ("Writer Logger: " ++ s)]
        | none => []) ++ Next ToLower n s

/-- The byte blocks that the writer `k` received, in order. -/
def received (k : Nat) : List Event → List String
  | [] => []
  | Event.write j b :: es => if j = k then b :: received k es else received k es
  | Event.stdout _ :: es => received k es

/-- The chain built by `TestCreateDefaultChain`: first, second, writer logger. -/
def defaultChain (k : Nat) : ChainLogger :=
  .FirstLogger (.SecondLogger (.WriterLogger .nil (some k)))

end Chain

/-! ## behavioral/command -/

namespace Cmd

/-- A value of interface type `Command`; `ConsoleOutput` is its only implementation. -/
structure Command where
  message : String
  deriving DecidableEq, Repr

/-- Go `CommandQueue`, together with the standard output and the history of
`Execute` calls (the history is not read by the code). -/
structure CommandQueue where
  queue : List Command
  stdout : List String
  executed : List Command
  deriving DecidableEq, Repr

/-- Go `ConsoleOutput.Execute`: `fmt.Println(c.message)`, recorded in the history. -/
def Execute (c : Command) (p : CommandQueue) : CommandQueue :=
  { p with stdout := p.stdout ++ [c.message ++ "\n"], executed := p.executed ++ [c] }

/-- A zero-valued `CommandQueue{}`. -/
def empty : CommandQueue := { queue := [], stdout := [], executed := [] }

/-- Go `CommandQueue.AddCommand`. -/
def AddCommand (p : CommandQueue) (c : Command) : CommandQueue :=
  let p1 := { p with queue := p.queue ++ [c] }
  if p1.queue.length = 3 then
    { (p1.queue.foldl (fun acc command => Execute command acc) p1) with queue := [] }
  else
    p1

/-- A sequence of `AddCommand` calls. -/
def addAll (p : CommandQueue) (cs : List Command) : CommandQueue :=
  cs.foldl AddCommand p

end Cmd

/-! ## concurrency/workersPool: data -/

namespace WorkersPool

/-- A Go value of type `any`, as far as the package looks at it: the nil
interface, a string, or a value of some other dynamic type. -/
inductive GoAny where
  | nil
  | str (s : String)
  | other (tag : Nat)
  deriving DecidableEq, Repr

/-- The part of the program state that request handlers act on: standard
output and the counters of the `sync.WaitGroup`s, by address. -/
structure World where
  stdout : List String
  wg : Nat → Int

/-- How a call of a handler ends: it returns, it panics, or it ends the
process (`log.Fatal`). Each carries the world the call leaves behind. -/
inductive HandlerResult where
  | returned (w : World)
  | panicked (w : World)
  | exited (w : World)

/-- Go `type RequestHandler func(any)`. -/
abbrev RequestHandler := GoAny → World → HandlerResult

/-- Go `type Request struct`. -/
structure Request where
  Data : GoAny
  Handler : RequestHandler

/-- Go `wg.Done()`: the counter drops by one, and a negative counter panics. -/
def wgDone (wg : Nat) (w : World) : HandlerResult :=
  let w1 : World := { w with wg := Function.update w.wg wg (w.wg wg - 1) }
  if w.wg wg - 1 < 0 then .panicked w1 else .returned w1

/-- Go `wg.Add(delta)`, for a `delta` that keeps the counter from going negative. -/
def wgAdd (wg : Nat) (delta : Int) (w : World) : World :=
  { w with wg := Function.update w.wg wg (w.wg wg + delta) }

/-- Go `NewStringRequest`. The handler defers `wg.Done()`, so it runs after
`fmt.Println(s)`; `log.Fatal` ends the process without running it. The text
that `log.Fatal` sends to standard error is not part of `World`. -/
def NewStringRequest (data : String) (wg : Nat) : Request :=
  { Data := .str data
    Handler := fun i w =>
      match i with
      | .str s => wgDone wg { w with stdout := w.stdout ++ [s ++ "\n"] }
      | _ => .exited w }

/-- Go `type PrefixSuffixWorker struct`. -/
structure PrefixSuffixWorker where
  id : Int
  prefixS : String
  suffixS : String
  deriving DecidableEq, Repr

/-- What one pass of a stage's loop body does with the message it received:
it sends a message on `out`, or it calls `msg.Handler(nil)` and continues. -/
inductive Body where
  | forward (msg : Request)
  | fail

/-- The loop body of `PrefixSuffixWorker.uppercase`. -/
def PrefixSuffixWorker.uppercase (ToUpper : String → String) (_w : PrefixSuffixWorker)
    (msg : Request) : Body :=
  match msg.Data with
  | .str s => .forward { msg with Data := .str (ToUpper s) }
  | _ => .fail

/-- The loop body of `PrefixSuffixWorker.append`; `fmt.Sprintf("%s%s", a, b)` is `a ++ b`. -/
def PrefixSuffixWorker.append (w : PrefixSuffixWorker) (msg : Request) : Body :=
  match msg.Data with
  | .str uppercaseString => .forward { msg with Data := .str (uppercaseString ++ w.suffixS) }
  | _ => .fail

/-- The loop body of `PrefixSuffixWorker.prefix`: the argument that `msg.Handler`
is called with, `none` standing for the failure branch `msg.Handler(nil)`. -/
def PrefixSuffixWorker.prefix_ (w : PrefixSuffixWorker) (msg : Request) : Option GoAny :=
  match msg.Data with
  | .str uppercaseStringWithSuffix => some (.str (w.prefixS ++ uppercaseStringWithSuffix))
  | _ => none

/-- The three bodies in the order `LaunchWorker` chains them, for one request
and without any scheduling: the argument its handler is called with. -/
def PrefixSuffixWorker.chain (ToUpper : String → String) (w : PrefixSuffixWorker)
    (r : Request) : GoAny :=
  match w.uppercase ToUpper r with
  | .fail => .nil
  | .forward m1 =>
    match w.append m1 with
    | .fail => .nil
    | .forward m2 =>
      match w.prefix_ m2 with
      | none => .nil
      | some a => a

/-! ## concurrency/workersPool: the running system

The goroutines of the package are embedded as a transition system on the
program state `Sys`. One transition is one move of one goroutine or one call
of the `Dispatcher` interface; a run is any interleaving of them, so a
statement about every run is a statement about every schedule.

* The buffered channel `inCh` is its buffer, its blocked senders and its
  closed flag. The unbuffered channels between the stages hold nothing: a
  send and the matching receive are one transition.
* A handler is a function on the world that returns, panics or exits the
  process; a call of it is part of the move of the stage that makes it.
* An unrecovered panic (of a handler, of a send on the closed channel, of a
  second `close`) and `log.Fatal` end the process: no transition follows.
* Time is counted in whole seconds by the transition `tick`; the timer of a
  blocked `MakeRequest` may fire once five of them have passed.
* `id`, `orig`, `log` and `nextId` are history: they record what happened and
  no transition reads them.
-/

/-- A request on its way through the channels. `msg` is the Go value; `id` (the
ordinal of the `MakeRequest` call) and `orig` (the request as it was passed to
`MakeRequest`) are history fields that no transition reads. -/
structure Msg where
  id : Nat
  orig : Request
  msg : Request

/-- A `MakeRequest` call blocked in its `select`, and the time it entered. -/
structure Blocked where
  m : Msg
  since : Nat

/-- The four places where the package calls `msg.Handler`. -/
inductive Site where
  | uppercaseFail
  | appendFail
  | prefixFail
  | prefixOk
  deriving DecidableEq, Repr

/-- How a handler call ended, without the world. -/
inductive Outcome where
  | returned
  | panicked
  | exited
  deriving DecidableEq, Repr

/-- Why the process died. -/
inductive Crash where
  | handlerPanic
  | handlerExit
  | sendOnClosed
  | closeOfClosed
  deriving DecidableEq, Repr

/-- One call of a handler, as recorded in the history. -/
structure Call where
  id : Nat
  orig : Request
  worker : PrefixSuffixWorker
  site : Site
  arg : GoAny
  outcome : Outcome

/-- The control state of a stage goroutine: blocked in `range in`, holding a
message it has just received, blocked in `out <- msg`, or returned. -/
inductive Stage where
  | waiting
  | got (m : Msg)
  | sending (m : Msg)
  | done

/-- The goroutine has returned. -/
def Stage.isDone : Stage → Bool
  | .done => true
  | _ => false

/-- A launched worker: its three goroutines. The unbuffered channels between
them carry no state of their own; a send and its receive are one transition. -/
structure Worker where
  cfg : PrefixSuffixWorker
  up : Stage
  ap : Stage
  pr : Stage

/-- The whole program state. `cap`, `queue`, `senders` and `closed` are the
channel `inCh`: its capacity, its buffer, the senders blocked on it and
whether it is closed. `now` is the time in seconds. `log` and `nextId` are
history. -/
structure Sys where
  cap : Nat
  queue : List Msg
  senders : List Blocked
  closed : Bool
  workers : List Worker
  world : World
  now : Nat
  log : List Call
  crashed : Option Crash
  nextId : Nat

/-- The `time.Second * 5` of `MakeRequest`, in seconds. -/
def admissionTimeout : Nat := 5

/-- The state of a program that has just made a dispatcher of capacity `cap`. -/
def fresh (world : World) (cap : Nat) : Sys :=
  { cap := cap, queue := [], senders := [], closed := false, workers := [],
    world := world, now := 0, log := [], crashed := none, nextId := 0 }

/-- Go `NewDispatcher`; `make` panics on a negative capacity. -/
def NewDispatcher (world : World) (b : Int) : Option Sys :=
  if b < 0 then none else some (fresh world b.toNat)

/-- Go `dispatcher.LaunchWorker` with `PrefixSuffixWorker.LaunchWorker`: the
three goroutines start and block on their inputs. -/
def LaunchWorker (s : Sys) (w : PrefixSuffixWorker) : Sys :=
  { s with workers := s.workers ++ [{ cfg := w, up := .waiting, ap := .waiting, pr := .waiting }] }

/-- Go `dispatcher.MakeRequest`, up to the point where the `select` either
sends at once or blocks. Sending on a closed channel panics. -/
def MakeRequest (s : Sys) (r : Request) : Sys :=
  let m : Msg := { id := s.nextId, orig := r, msg := r }
  if s.closed then
    { s with crashed := some .sendOnClosed, nextId := s.nextId + 1 }
  else if s.queue.length < s.cap then
    { s with queue := s.queue ++ [m], nextId := s.nextId + 1 }
  else
    { s with senders := s.senders ++ [{ m := m, since := s.now }], nextId := s.nextId + 1 }

/-- Go `dispatcher.Stop`: `close(d.inCh)`, which panics on a closed channel. -/
def Stop (s : Sys) : Sys :=
  if s.closed then { s with crashed := some .closeOfClosed } else { s with closed := true }

/-- The branch `case <-time.After(time.Second * 5): return` of the `k`-th
blocked `MakeRequest`: enabled once five seconds have passed since it entered. -/
def timeout (s : Sys) (k : Nat) : Option Sys :=
  match s.senders[k]? with
  | some b =>
    if b.since + admissionTimeout ≤ s.now then some { s with senders := s.senders.eraseIdx k }
    else none
  | none => none

/-- A sender blocked on `inCh` when it is closed panics. -/
def sendPanic (s : Sys) : Option Sys :=
  match s.closed, s.senders with
  | true, _ :: _ => some { s with crashed := some .sendOnClosed }
  | _, _ => none

/-- How the call ended. -/
def HandlerResult.outcome : HandlerResult → Outcome
  | .returned _ => .returned
  | .panicked _ => .panicked
  | .exited _ => .exited

/-- The world the call left behind. -/
def HandlerResult.world : HandlerResult → World
  | .returned w => w
  | .panicked w => w
  | .exited w => w

/-- The state of the process after the call: a panic that no stage recovers
and an exit both end it. -/
def HandlerResult.crash (old : Option Crash) : HandlerResult → Option Crash
  | .returned _ => old
  | .panicked _ => some .handlerPanic
  | .exited _ => some .handlerExit

/-- The same, from the outcome alone. -/
def Outcome.crash (old : Option Crash) : Outcome → Option Crash
  | .returned => old
  | .panicked => some .handlerPanic
  | .exited => some .handlerExit

/-- A call `msg.Handler(arg)` made by a stage of worker `cfg`. -/
def invoke (s : Sys) (cfg : PrefixSuffixWorker) (site : Site) (m : Msg) (arg : GoAny) : Sys :=
  { s with
    world := (m.msg.Handler arg s.world).world
    log := s.log ++ [⟨m.id, m.orig, cfg, site, arg, (m.msg.Handler arg s.world).outcome⟩]
    crashed := (m.msg.Handler arg s.world).crash s.crashed }

/-- Worker `i` moves to the state `w`; nothing else changes. -/
def Sys.setWorker (s : Sys) (i : Nat) (w : Worker) : Sys :=
  { s with workers := s.workers.set i w }

/-- The `range in` of `uppercase` in worker `i` receives from `inCh`: the head
of the buffer (the first blocked sender, if the channel is open, then moves
its value into the buffer), or, with an empty buffer, the value of the first
blocked sender directly. -/
def receive (s : Sys) (i : Nat) : Option Sys :=
  match s.workers[i]? with
  | none => none
  | some w =>
    match w.up with
    | .waiting =>
      match s.queue with
      | m :: q =>
        match s.closed, s.senders with
        | false, b :: bs =>
          some ({ s with queue := q ++ [b.m], senders := bs }.setWorker i { w with up := .got m })
        | _, _ =>
          some ({ s with queue := q }.setWorker i { w with up := .got m })
      | [] =>
        match s.closed, s.senders with
        | false, b :: bs =>
          some ({ s with senders := bs }.setWorker i { w with up := .got b.m })
        | _, _ => none
    | _ => none

/-- The loop body of `uppercase` in worker `i`, on the message it holds. -/
def uppercase (ToUpper : String → String) (s : Sys) (i : Nat) : Option Sys :=
  match s.workers[i]? with
  | none => none
  | some w =>
    match w.up with
    | .got m =>
      match w.cfg.uppercase ToUpper m.msg with
      | .forward msg1 =>
        some (s.setWorker i { w with up := .sending { m with msg := msg1 } })
      | .fail =>
        some (invoke (s.setWorker i { w with up := .waiting })
          w.cfg .uppercaseFail m .nil)
    | _ => none

/-- The send `out <- msg` of `uppercase` meets the `range in` of `append`. -/
def pass1 (s : Sys) (i : Nat) : Option Sys :=
  match s.workers[i]? with
  | none => none
  | some w =>
    match w.up, w.ap with
    | .sending m, .waiting =>
      some (s.setWorker i { w with up := .waiting, ap := .got m })
    | _, _ => none

/-- The loop body of `append` in worker `i`, on the message it holds. -/
def append (s : Sys) (i : Nat) : Option Sys :=
  match s.workers[i]? with
  | none => none
  | some w =>
    match w.ap with
    | .got m =>
      match w.cfg.append m.msg with
      | .forward msg1 =>
        some (s.setWorker i { w with ap := .sending { m with msg := msg1 } })
      | .fail =>
        some (invoke (s.setWorker i { w with ap := .waiting })
          w.cfg .appendFail m .nil)
    | _ => none

/-- The send `out <- msg` of `append` meets the `range in` of `prefix`. -/
def pass2 (s : Sys) (i : Nat) : Option Sys :=
  match s.workers[i]? with
  | none => none
  | some w =>
    match w.ap, w.pr with
    | .sending m, .waiting =>
      some (s.setWorker i { w with ap := .waiting, pr := .got m })
    | _, _ => none

/-- The loop body of `prefix` in worker `i`, on the message it holds. -/
def prefixStage (s : Sys) (i : Nat) : Option Sys :=
  match s.workers[i]? with
  | none => none
  | some w =>
    match w.pr with
    | .got m =>
      match w.cfg.prefix_ m.msg with
      | some a =>
        some (invoke (s.setWorker i { w with pr := .waiting })
          w.cfg .prefixOk m a)
      | none =>
        some (invoke (s.setWorker i { w with pr := .waiting })
          w.cfg .prefixFail m .nil)
    | _ => none

/-- The `range in` of `uppercase` ends, `inCh` being closed and drained, and
the goroutine runs `close(out)` and returns. -/
def closeUppercase (s : Sys) (i : Nat) : Option Sys :=
  match s.workers[i]? with
  | none => none
  | some w =>
    match w.up, s.closed, s.queue with
    | .waiting, true, [] => some (s.setWorker i { w with up := .done })
    | _, _, _ => none

/-- The `range in` of `append` ends, `uppercase` having closed its `out`. -/
def closeAppend (s : Sys) (i : Nat) : Option Sys :=
  match s.workers[i]? with
  | none => none
  | some w =>
    match w.ap, w.up with
    | .waiting, .done => some (s.setWorker i { w with ap := .done })
    | _, _ => none

/-- The `range in` of `prefix` ends, `append` having closed its `out`. -/
def exitPrefix (s : Sys) (i : Nat) : Option Sys :=
  match s.workers[i]? with
  | none => none
  | some w =>
    match w.pr, w.ap with
    | .waiting, .done => some (s.setWorker i { w with pr := .done })
    | _, _ => none

/-- The transitions of the system: the three calls of the `Dispatcher`
interface, the passing of one second, and the moves of the goroutines. -/
inductive Action where
  | LaunchWorker (w : PrefixSuffixWorker)
  | MakeRequest (r : Request)
  | Stop
  | tick
  | timeout (k : Nat)
  | sendPanic
  | receive (i : Nat)
  | uppercase (i : Nat)
  | pass1 (i : Nat)
  | append (i : Nat)
  | pass2 (i : Nat)
  | prefixStage (i : Nat)
  | closeUppercase (i : Nat)
  | closeAppend (i : Nat)
  | exitPrefix (i : Nat)

/-- The moves of the stage goroutines, as opposed to those of the callers and the clock. -/
def Action.isStage : Action → Bool
  | .receive _ | .uppercase _ | .pass1 _ | .append _ | .pass2 _ | .prefixStage _
  | .closeUppercase _ | .closeAppend _ | .exitPrefix _ => true
  | _ => false

/-- One transition; `none` when the action is not enabled. A dead process moves no more. -/
def step (ToUpper : String → String) (s : Sys) (a : Action) : Option Sys :=
  match s.crashed with
  | some _ => none
  | none =>
    match a with
    | .LaunchWorker w => some (LaunchWorker s w)
    | .MakeRequest r => some (MakeRequest s r)
    | .Stop => some (Stop s)
    | .tick => some { s with now := s.now + 1 }
    | .timeout k => timeout s k
    | .sendPanic => sendPanic s
    | .receive i => receive s i
    | .uppercase i => uppercase ToUpper s i
    | .pass1 i => pass1 s i
    | .append i => append s i
    | .pass2 i => pass2 s i
    | .prefixStage i => prefixStage s i
    | .closeUppercase i => closeUppercase s i
    | .closeAppend i => closeAppend s i
    | .exitPrefix i => exitPrefix s i

/-- A run: the actions taken one after the other, `none` if one is not enabled. -/
def exec (ToUpper : String → String) (s : Sys) : List Action → Option Sys
  | [] => some s
  | a :: as => (step ToUpper s a).bind (fun s1 => exec ToUpper s1 as)

/-! ## concurrency/workersPool: what the proofs speak about -/

/-- The message a stage holds, if any. -/
def Stage.ids : Stage → List Nat
  | .got m => [m.id]
  | .sending m => [m.id]
  | _ => []

/-- The requests inside worker `w`. -/
def Worker.ids (w : Worker) : List Nat := w.up.ids ++ w.ap.ids ++ w.pr.ids

/-- The requests in the buffer of `inCh`. -/
def Sys.queuedIds (s : Sys) : List Nat := s.queue.map (fun m => m.id)

/-- The requests of the blocked `MakeRequest` calls. -/
def Sys.blockedIds (s : Sys) : List Nat := s.senders.map (fun b => b.m.id)

/-- The requests that some worker has taken from `inCh` and is still working on. -/
def Sys.inflightIds (s : Sys) : List Nat := (s.workers.map Worker.ids).flatten

/-- The requests whose handler has been called, one entry per call. -/
def Sys.calledIds (s : Sys) : List Nat := s.log.map (fun c => c.id)

/-- The requests that have been placed on `inCh` so far. -/
def Sys.admittedIds (s : Sys) : List Nat := s.queuedIds ++ s.inflightIds ++ s.calledIds

/-- The requests that a worker has taken from `inCh` so far. -/
def Sys.consumedIds (s : Sys) : List Nat := s.inflightIds ++ s.calledIds

/-- In how many places request `k` is at the moment. -/
def Sys.occ (s : Sys) (k : Nat) : Nat :=
  s.queuedIds.count k + s.blockedIds.count k + s.inflightIds.count k + s.calledIds.count k

/-- The steps `uppercase` still has to take for what it holds, and to return. -/
def Stage.weightUp : Stage → Nat
  | .done => 0
  | .waiting => 1
  | .sending _ => 5
  | .got _ => 6

/-- The same for `append`. -/
def Stage.weightAp : Stage → Nat
  | .done => 0
  | .waiting => 1
  | .sending _ => 3
  | .got _ => 4

/-- The same for `prefix`. -/
def Stage.weightPr : Stage → Nat
  | .done => 0
  | .waiting => 1
  | .sending _ => 0
  | .got _ => 2

/-- The work left in one worker. -/
def Worker.weight (w : Worker) : Nat := w.up.weightUp + w.ap.weightAp + w.pr.weightPr

/-- A bound on the number of stage moves the system can still make. -/
def Sys.weight (s : Sys) : Nat :=
  6 * s.queue.length + 6 * s.senders.length + (s.workers.map Worker.weight).sum

/-- The message is as it was passed to `MakeRequest`. -/
def Msg.Fresh (m : Msg) : Prop := m.msg = m.orig

/-- The message has been through the body of `uppercase`. -/
def Msg.Uppered (ToUpper : String → String) (m : Msg) : Prop :=
  ∃ x, m.orig.Data = .str x ∧ m.msg.Data = .str (ToUpper x) ∧ m.msg.Handler = m.orig.Handler

/-- The message has been through the bodies of `uppercase` and `append`. -/
def Msg.Suffixed (ToUpper : String → String) (cfg : PrefixSuffixWorker) (m : Msg) : Prop :=
  ∃ x, m.orig.Data = .str x ∧ m.msg.Data = .str (ToUpper x ++ cfg.suffixS) ∧
    m.msg.Handler = m.orig.Handler

/-- What each stage of a worker holds. -/
structure Worker.DataOk (ToUpper : String → String) (w : Worker) : Prop where
  upGot : ∀ m, w.up = .got m → m.Fresh
  upSending : ∀ m, w.up = .sending m → m.Uppered ToUpper
  apGot : ∀ m, w.ap = .got m → m.Uppered ToUpper
  apSending : ∀ m, w.ap = .sending m → m.Suffixed ToUpper w.cfg
  prGot : ∀ m, w.pr = .got m → m.Suffixed ToUpper w.cfg

/-- The control states of the three goroutines fit together: `prefix` never
sends, and a stage returns only after the stage before it. -/
structure Worker.Shape (w : Worker) : Prop where
  prNoSend : ∀ m, w.pr ≠ .sending m
  apDone : w.ap = .done → w.up = .done
  prDone : w.pr = .done → w.ap = .done

/-- A recorded call is one of the two kinds the chain can make: the result of
the whole chain for a string payload, or `nil` from `uppercase` for any other. -/
structure Call.Ok (ToUpper : String → String) (c : Call) : Prop where
  ran : ∃ w, c.outcome = (c.orig.Handler c.arg w).outcome
  kind : (∃ x, c.orig.Data = .str x ∧ c.site = .prefixOk ∧
            c.arg = .str (c.worker.prefixS ++ (ToUpper x ++ c.worker.suffixS))) ∨
         ((∀ x, c.orig.Data ≠ .str x) ∧ c.site = .uppercaseFail ∧ c.arg = .nil)

/-- The invariant of the running system. -/
structure Inv (ToUpper : String → String) (s : Sys) : Prop where
  once : ∀ k, s.occ k ≤ 1
  unused : ∀ k, s.nextId ≤ k → s.occ k = 0
  queue : ∀ m ∈ s.queue, m.Fresh
  senders : ∀ b ∈ s.senders, b.m.Fresh
  data : ∀ w ∈ s.workers, w.DataOk ToUpper
  shape : ∀ w ∈ s.workers, w.Shape
  drained : ∀ w ∈ s.workers, w.up = .done → s.closed = true ∧ s.queue = []
  calls : ∀ c ∈ s.log, c.Ok ToUpper

/-- All three goroutines of every worker have returned. -/
def Sys.retired (s : Sys) : Bool :=
  s.workers.all (fun w => w.up.isDone && w.ap.isDone && w.pr.isDone)

/-- No stage goroutine can move. -/
def Sys.Quiet (ToUpper : String → String) (s : Sys) : Prop :=
  ∀ a, a.isStage = true → step ToUpper s a = none

/-- A run made of moves of the stage goroutines only. -/
def stageRun (as : List Action) : Prop := ∀ a ∈ as, a.isStage = true

/-- The handler of the request returns, whatever it is called with. -/
def Request.Returns (r : Request) : Prop :=
  ∀ a w, ∃ w1, r.Handler a w = .returned w1

/-- The handler of the request returns when it is called with the result of
the chain in a world that satisfies `J n`, `n < N` being the number of handler
calls made before, and it leaves a world that satisfies `J (n + 1)`. -/
def Request.Keeps (ToUpper : String → String) (N : Nat) (J : Nat → World → Prop)
    (r : Request) : Prop :=
  ∀ (cfg : PrefixSuffixWorker) (n : Nat) (w : World), n < N → J n w →
    ∃ w1, r.Handler (cfg.chain ToUpper r) w = .returned w1 ∧ J (n + 1) w1

/-- Every message inside the worker satisfies `P`. -/
structure Worker.All (P : Msg → Prop) (w : Worker) : Prop where
  upGot : ∀ m, w.up = .got m → P m
  upSending : ∀ m, w.up = .sending m → P m
  apGot : ∀ m, w.ap = .got m → P m
  apSending : ∀ m, w.ap = .sending m → P m
  prGot : ∀ m, w.pr = .got m → P m

/-- Every message in the system satisfies `P`. -/
structure Sys.All (P : Msg → Prop) (s : Sys) : Prop where
  queue : ∀ m ∈ s.queue, P m
  senders : ∀ b ∈ s.senders, P b.m
  workers : ∀ w ∈ s.workers, w.All P

/-- A property of messages that the stage bodies cannot change: it does not
depend on the travelling value. -/
def Stable (P : Msg → Prop) : Prop := ∀ m msg1, P m → P { m with msg := msg1 }

/-- What one move of a stage goroutine does to the bookkeeping. -/
structure StageFacts (ToUpper : String → String) (s s1 : Sys) : Prop where
  inv : Inv ToUpper s → Inv ToUpper s1
  occ : ∀ k, s1.occ k = s.occ k
  waiting : ∀ k, s1.queuedIds.count k + s1.blockedIds.count k ≤
    s.queuedIds.count k + s.blockedIds.count k
  blocked : ∀ k, s1.blockedIds.count k ≤ s.blockedIds.count k
  weight : s1.weight < s.weight
  closed : s1.closed = s.closed
  all : ∀ P, Stable P → s.All P → s1.All P
  alive : Inv ToUpper s → ∀ J : Nat → World → Prop,
    s.All (fun m => m.orig.Keeps ToUpper s.nextId J) → J s.log.length s.world →
    s.crashed = none → s1.crashed = none ∧ J s1.log.length s1.world
  nextId : s1.nextId = s.nextId
  drawn : s.closed = true → s1.blockedIds = s.blockedIds
  log : (s1.log = s.log ∧ s1.crashed = s.crashed) ∨
    ∃ c, s1.log = s.log ++ [c] ∧ s1.crashed = c.outcome.crash s.crashed
  crew : s1.workers.length = s.workers.length

/-! ## concurrency/workersPool: programs used for evaluation -/

/-- A world with nothing printed and every `WaitGroup` at zero. -/
def World.start : World := { stdout := [], wg := fun _ => 0 }

/-- The moves that take the request `uppercase` holds through worker `i` to its handler. -/
def process (i : Nat) : List Action :=
  [.uppercase i, .pass1 i, .append i, .pass2 i, .prefixStage i]

/-- The moves that take one request from `inCh` through worker `i` to its handler. -/
def serve (i : Nat) : List Action := .receive i :: process i

/-- The moves by which the goroutines of worker `i` return once `inCh` is closed and drained. -/
def retire (i : Nat) : List Action :=
  [.closeUppercase i, .closeAppend i, .exitPrefix i]

/-- The worker of scenario A of the specification. -/
def workerA : PrefixSuffixWorker := { id := 1, prefixS := "Y-", suffixS := "-X" }

/-- Scenario A: capacity zero, one worker, the payload `"ab"`. -/
def scenarioA : List Action :=
  [.LaunchWorker workerA, .MakeRequest (NewStringRequest "ab" 0)] ++ serve 0

/-- The state scenario A starts in: the `WaitGroup` at address 0 counts one request. -/
def startA : Sys := fresh (wgAdd 0 1 World.start) 0

/-- The state scenario A ends in. -/
def finalA : Sys := (exec asciiToUpper startA scenarioA).getD startA

/-- Go `fmt.Sprintf("%d", i)` for `i < 10`. -/
def digit (i : Nat) : String := String.singleton (Char.ofNat (48 + i))

/-- The workers of `TestWorkersPool`. -/
def testWorker (i : Nat) : PrefixSuffixWorker :=
  { id := i, prefixS := "Worker id: " ++ digit i ++ " -> ", suffixS := " World" }

/-- The requests of `TestWorkersPool`. -/
def testRequest (i : Nat) : Request :=
  NewStringRequest ("(Msg_id: " ++ digit i ++ ") -> Hello") 0

/-- The calls of `TestWorkersPool` up to and including `dispatcher.Stop()`. -/
def testCalls : List Action :=
  (List.range 3).map (fun i => Action.LaunchWorker (testWorker (i + 1))) ++
  (List.range 10).map (fun i => Action.MakeRequest (testRequest i)) ++ [.Stop]

/-- One way for the three workers to drain the ten requests and return: the
requests go to the workers in turn. -/
def testDrain : List Action :=
  ((List.range 10).map (fun i => serve (i % 3))).flatten ++
  ((List.range 3).map retire).flatten

/-- The state `TestWorkersPool` starts in, after `wg.Add(requests)`. -/
def startTest : Sys := fresh (wgAdd 0 10 World.start) 100

/-- The state of `TestWorkersPool` when `dispatcher.Stop()` has returned. -/
def stoppedTest : Sys := (exec asciiToUpper startTest testCalls).getD startTest

/-- The state of `TestWorkersPool` after `testDrain`. -/
def finalTest : Sys := (exec asciiToUpper stoppedTest testDrain).getD stoppedTest

/-- A whole call of `MakeRequest`, from entry to return, made while nothing
else moves: it returns at once when the `select` can send (or panics), and
otherwise stays blocked until five seconds have passed and its timer fires. -/
def MakeRequestAlone (ToUpper : String → String) (s : Sys) (r : Request) : Option Sys :=
  (step ToUpper s (.MakeRequest r)).bind fun s1 =>
    if s1.senders.length = s.senders.length then some s1
    else exec ToUpper s1 (List.replicate admissionTimeout .tick ++ [.timeout s.senders.length])

/-- A caller that makes the requests one after the other. -/
def submitAll (ToUpper : String → String) (s : Sys) : List Request → Option Sys
  | [] => some s
  | r :: rs => (MakeRequestAlone ToUpper s r).bind (fun s1 => submitAll ToUpper s1 rs)

/-- A handler that returns and does nothing. -/
def idleHandler : RequestHandler := fun _ w => .returned w

/-- A handler that panics. -/
def panicHandler : RequestHandler := fun _ w => .panicked w

/-- Scenario C: capacity two, no worker, three requests. -/
def requestsC : List Request :=
  [⟨.str "a", idleHandler⟩, ⟨.str "b", idleHandler⟩, ⟨.str "c", idleHandler⟩]

/-- The state scenario C ends in. -/
def finalC : Sys :=
  ((submitAll asciiToUpper (fresh World.start 2) requestsC)).getD (fresh World.start 2)

/-- Scenario B followed by a good request: one worker, a payload that is not a
string, then the payload `"ab"`. -/
def scenarioB : List Action :=
  [.LaunchWorker workerA, .MakeRequest ⟨.other 7, idleHandler⟩,
    .MakeRequest ⟨.str "ab", idleHandler⟩, .receive 0]

/-- The state in which `uppercase` holds the bad request of scenario B. -/
def heldB : Sys := (exec asciiToUpper (fresh World.start 2) scenarioB).getD (fresh World.start 2)

/-- The state after `uppercase` has dealt with the bad request and the worker
has served the good one. -/
def finalB : Sys := (exec asciiToUpper heldB (.uppercase 0 :: serve 0)).getD heldB

/-- A request whose handler panics, then a good request, one worker: the moves
up to the call of the panicking handler by `prefix`. -/
def scenarioPanic : List Action :=
  [.LaunchWorker workerA, .MakeRequest ⟨.str "a", panicHandler⟩,
    .MakeRequest ⟨.str "b", idleHandler⟩, .receive 0, .uppercase 0, .pass1 0, .append 0,
    .pass2 0, .receive 0]

/-- The state just before `prefix` calls the panicking handler; `uppercase`
already holds the next request. -/
def beforePanic : Sys :=
  (exec asciiToUpper (fresh World.start 2) scenarioPanic).getD (fresh World.start 2)

/-- The state after the call. -/
def afterPanic : Sys := (step asciiToUpper beforePanic (.prefixStage 0)).getD beforePanic

/-- A second worker, with its own prefix and suffix. -/
def workerB : PrefixSuffixWorker := { id := 2, prefixS := "Z-", suffixS := "-W" }

/-- Two workers and two requests. The first request, whose handler panics,
goes to the first worker; the second goes to the second worker, which takes
it as far as `prefix`. Then `prefix` of the first worker makes its call. -/
def scenarioLost : List Action :=
  [.LaunchWorker workerA, .LaunchWorker workerB, .MakeRequest ⟨.str "a", panicHandler⟩,
    .MakeRequest ⟨.str "b", idleHandler⟩, .receive 0, .receive 1, .uppercase 1, .pass1 1,
    .append 1, .pass2 1] ++ process 0

/-- The state `scenarioLost` ends in. -/
def lostFinal : Sys :=
  (exec asciiToUpper (fresh World.start 2) scenarioLost).getD (fresh World.start 2)

/-- A request built by `NewStringRequest` whose field `Data` was then set to a
value that is not a string. -/
def fatalRequest : Request := { NewStringRequest "x" 0 with Data := .other 7 }

/-- One worker; `fatalRequest`, then a good request behind it; `uppercase`
takes the first and runs its loop body on it. -/
def scenarioFatal : List Action :=
  [.LaunchWorker workerA, .MakeRequest fatalRequest, .MakeRequest ⟨.str "ab", idleHandler⟩,
    .receive 0, .uppercase 0]

/-- The state `scenarioFatal` ends in. -/
def fatalFinal : Sys :=
  (exec asciiToUpper (fresh (wgAdd 0 1 World.start) 2) scenarioFatal).getD
    (fresh (wgAdd 0 1 World.start) 2)

/-- Capacity one, one worker, one request admitted, then `Stop`. -/
def callsLate : List Action :=
  [.LaunchWorker workerA, .MakeRequest ⟨.str "a", idleHandler⟩, .Stop]

/-- The state when that `Stop` has returned. -/
def stoppedLate : Sys :=
  (exec asciiToUpper (fresh World.start 1) callsLate).getD (fresh World.start 1)

/-- The state after a `MakeRequest` call made after that `Stop`. -/
def lateFinal : Sys :=
  (step asciiToUpper stoppedLate (.MakeRequest ⟨.str "b", idleHandler⟩)).getD stoppedLate

/-- Capacity one, one worker, one request admitted, a second `MakeRequest`
blocked on the full buffer, then `Stop`. -/
def callsBlocked : List Action :=
  [.LaunchWorker workerA, .MakeRequest ⟨.str "a", idleHandler⟩,
    .MakeRequest ⟨.str "b", idleHandler⟩, .Stop]

/-- The state when that `Stop` has returned. -/
def stoppedBlocked : Sys :=
  (exec asciiToUpper (fresh World.start 1) callsBlocked).getD (fresh World.start 1)

/-- The state after the blocked call has seen the channel closed. -/
def blockedFinal : Sys := (step asciiToUpper stoppedBlocked .sendPanic).getD stoppedBlocked

end WorkersPool

end Patterns

/-! # Theorems -/

namespace Patterns

/-! ## behavioral/chainOfResponsibility -/

namespace Chain

/-- C8. In the chain first logger, second logger, writer logger, the writer
receives exactly one block, `"Writer Logger: " ++ s`, when the lower-cased
message contains `"hello"`, and nothing at all otherwise. -/
theorem defaultChain_writer (ToLower : String → String) (k : Nat) (s : String) :
    received k (Next ToLower (defaultChain k) s) =
      if Contains (ToLower s) "hello" then ["Writer Logger: " ++ s] else [] := by
  unfold defaultChain
  by_cases h : Contains (ToLower s) "hello" = true
  · simp [Next, received, h]
  · simp [Next, received, h]

end Chain

/-! ## behavioral/command -/

namespace Cmd

theorem foldl_Execute (q : List Command) (p : CommandQueue) :
    (q.foldl (fun acc command => Execute command acc) p).executed = p.executed ++ q ∧
    (q.foldl (fun acc command => Execute command acc) p).stdout =
      p.stdout ++ q.map (fun c => c.message ++ "\n") := by
  induction q generalizing p with
  | nil => simp
  | cons c q ih =>
    obtain ⟨h1, h2⟩ := ih (Execute c p)
    simp only [List.foldl_cons, h1, h2]
    simp [Execute]

theorem addAll_inv (cs : List Command) :
    (addAll empty cs).queue = cs.drop (3 * (cs.length / 3)) ∧
    (addAll empty cs).executed = cs.take (3 * (cs.length / 3)) ∧
    (addAll empty cs).stdout = (addAll empty cs).executed.map (fun c => c.message ++ "\n") := by
  induction cs using List.reverseRecOn with
  | nil => simp [addAll, empty]
  | append_singleton cs c ih =>
    obtain ⟨hq, he, ho⟩ := ih
    have hk : 3 * (cs.length / 3) ≤ cs.length := Nat.mul_div_le _ _
    have hlen : (addAll empty cs).queue.length = cs.length % 3 := by
      rw [hq, List.length_drop]; omega
    have hstep : addAll empty (cs ++ [c]) = AddCommand (addAll empty cs) c := by
      simp [addAll, List.foldl_append]
    rw [hstep]
    by_cases h3 : cs.length % 3 = 2
    · have hn : 3 * ((cs ++ [c]).length / 3) = cs.length + 1 := by
        simp only [List.length_append, List.length_singleton]; omega
      have hfl : ((addAll empty cs).queue ++ [c]).length = 3 := by
        simp [hlen, h3]
      rw [hn]
      unfold AddCommand
      simp only [hfl, if_true]
      refine ⟨?_, ?_, ?_⟩
      · simp
      · rw [(foldl_Execute _ _).1]
        simp only [he, hq]
        rw [← List.append_assoc, List.take_append_drop]
        have : cs.length + 1 = (cs ++ [c]).length := by simp
        rw [this, List.take_length]
      · simp only [(foldl_Execute _ _).1, (foldl_Execute _ _).2, ho, List.map_append]
    · have hn : 3 * ((cs ++ [c]).length / 3) = 3 * (cs.length / 3) := by
        simp only [List.length_append, List.length_singleton]; omega
      have hfl : ¬ ((addAll empty cs).queue ++ [c]).length = 3 := by
        simp [hlen]; omega
      rw [hn]
      unfold AddCommand
      simp only [hfl, if_false]
      refine ⟨?_, ?_, ho⟩
      · simp only [hq]
        rw [List.drop_append_of_le_length hk]
      · simp only [he]
        rw [List.take_append_of_le_length hk]

/-- C9. After any sequence of `AddCommand` calls on an empty queue, the queue
holds as many commands as the number of calls modulo three (none after every
third call), namely the last ones added, and the commands executed so far are
the first `3 * (n / 3)` added, once each and in the order they were added;
standard output holds their messages, one line each. -/
theorem addAll_spec (cs : List Command) :
    (addAll empty cs).queue.length = cs.length % 3 ∧
    (cs.length % 3 = 0 → (addAll empty cs).queue = []) ∧
    (addAll empty cs).queue = cs.drop (3 * (cs.length / 3)) ∧
    (addAll empty cs).executed = cs.take (3 * (cs.length / 3)) ∧
    (addAll empty cs).stdout =
      (cs.take (3 * (cs.length / 3))).map (fun c => c.message ++ "\n") := by
  obtain ⟨hq, he, ho⟩ := addAll_inv cs
  have hk : 3 * (cs.length / 3) ≤ cs.length := Nat.mul_div_le _ _
  have hlen : (addAll empty cs).queue.length = cs.length % 3 := by
    rw [hq, List.length_drop]; omega
  refine ⟨hlen, ?_, hq, he, by rw [ho, he]⟩
  intro h0
  apply List.eq_nil_of_length_eq_zero
  rw [hlen, h0]

end Cmd

/-! ## concurrency/workersPool: bookkeeping -/

namespace WorkersPool

theorem sum_map_set {α : Type} (f : α → Nat) (ws : List α) (i : Nat) (w w1 : α)
    (h : ws[i]? = some w) :
    ((ws.set i w1).map f).sum + f w = (ws.map f).sum + f w1 := by
  induction ws generalizing i with
  | nil => simp at h
  | cons x xs ih =>
    cases i with
    | zero =>
      simp at h
      subst h
      simp
      omega
    | succ j =>
      simp at h
      have := ih j h
      simp only [List.set_cons_succ, List.map_cons, List.sum_cons]
      omega

theorem count_inflight (ws : List Worker) (k : Nat) :
    (ws.map Worker.ids).flatten.count k = (ws.map (fun w => w.ids.count k)).sum := by
  rw [List.count_flatten, List.map_map]
  rfl

theorem occ_setWorker (s : Sys) (i : Nat) (w w1 : Worker) (h : s.workers[i]? = some w)
    (k : Nat) :
    (s.setWorker i w1).occ k + w.ids.count k = s.occ k + w1.ids.count k := by
  have := sum_map_set (fun w => w.ids.count k) s.workers i w w1 h
  dsimp only at this
  simp only [Sys.occ, Sys.setWorker, Sys.inflightIds, Sys.queuedIds, Sys.blockedIds,
    Sys.calledIds, count_inflight]
  omega

theorem weight_setWorker (s : Sys) (i : Nat) (w w1 : Worker) (h : s.workers[i]? = some w) :
    (s.setWorker i w1).weight + w.weight = s.weight + w1.weight := by
  have := sum_map_set Worker.weight s.workers i w w1 h
  simp only [Sys.weight, Sys.setWorker]
  omega

theorem occ_invoke (s : Sys) (cfg : PrefixSuffixWorker) (site : Site) (m : Msg) (arg : GoAny)
    (k : Nat) :
    (invoke s cfg site m arg).occ k = s.occ k + [m.id].count k := by
  simp only [Sys.occ, invoke, Sys.inflightIds, Sys.queuedIds, Sys.blockedIds,
    Sys.calledIds, List.map_append, List.count_append, List.map_cons, List.map_nil]
  omega

theorem mem_setWorker {s : Sys} {i : Nat} {w1 x : Worker} (h : x ∈ (s.setWorker i w1).workers) :
    x ∈ s.workers ∨ x = w1 :=
  List.mem_or_eq_of_mem_set h

/-- Replacing a worker by one that holds the same requests keeps the invariant. -/
theorem inv_setWorker {T : String → String} {s : Sys} {i : Nat} {w w1 : Worker}
    (hI : Inv T s) (hi : s.workers[i]? = some w)
    (hd : w1.DataOk T) (hs : w1.Shape)
    (hdr : w1.up = .done → s.closed = true ∧ s.queue = [])
    (hc : ∀ k, w1.ids.count k = w.ids.count k) :
    Inv T (s.setWorker i w1) := by
  have hocc : ∀ k, (s.setWorker i w1).occ k = s.occ k := by
    intro k
    have := occ_setWorker s i w w1 hi k
    have := hc k
    omega
  refine ⟨?_, ?_, hI.queue, hI.senders, ?_, ?_, ?_, hI.calls⟩
  · intro k; rw [hocc]; exact hI.once k
  · intro k hk; rw [hocc]; exact hI.unused k hk
  · intro x hx
    rcases mem_setWorker hx with h | h
    · exact hI.data x h
    · subst h; exact hd
  · intro x hx
    rcases mem_setWorker hx with h | h
    · exact hI.shape x h
    · subst h; exact hs
  · intro x hx hdone
    rcases mem_setWorker hx with h | h
    · exact hI.drained x h hdone
    · subst h; exact hdr hdone

/-- A handler call keeps the invariant when the request it is made for has
just left the worker and the call is one the chain can make. -/
theorem inv_invoke {T : String → String} {s : Sys} {i : Nat} {w w1 : Worker}
    {cfg : PrefixSuffixWorker} {site : Site} {m : Msg} {arg : GoAny}
    (hI : Inv T s) (hi : s.workers[i]? = some w)
    (hd : w1.DataOk T) (hs : w1.Shape)
    (hdr : w1.up = .done → s.closed = true ∧ s.queue = [])
    (hc : ∀ k, w1.ids.count k + [m.id].count k = w.ids.count k)
    (hcall : ∀ o, (∃ wd, o = (m.orig.Handler arg wd).outcome) →
      Call.Ok T ⟨m.id, m.orig, cfg, site, arg, o⟩)
    (hh : m.msg.Handler = m.orig.Handler) :
    Inv T (invoke (s.setWorker i w1) cfg site m arg) := by
  have hocc : ∀ k, (WorkersPool.invoke (s.setWorker i w1) cfg site m arg).occ k = s.occ k := by
    intro k
    have := occ_setWorker s i w w1 hi k
    have := hc k
    rw [occ_invoke]
    omega
  refine ⟨?_, ?_, hI.queue, hI.senders, ?_, ?_, ?_, ?_⟩
  · intro k; rw [hocc]; exact hI.once k
  · intro k hk; rw [hocc]; exact hI.unused k hk
  · intro x hx
    rcases mem_setWorker hx with h | h
    · exact hI.data x h
    · subst h; exact hd
  · intro x hx
    rcases mem_setWorker hx with h | h
    · exact hI.shape x h
    · subst h; exact hs
  · intro x hx hdone
    rcases mem_setWorker hx with h | h
    · exact hI.drained x h hdone
    · subst h; exact hdr hdone
  · intro c hc
    simp only [WorkersPool.invoke, List.mem_append, List.mem_singleton] at hc
    rcases hc with h | h
    · exact hI.calls c h
    · subst h
      apply hcall
      exact ⟨(s.setWorker i w1).world, by rw [hh]⟩

theorem all_setWorker {P : Msg → Prop} {s : Sys} {i : Nat} {w1 : Worker}
    (h : s.All P) (hw : w1.All P) : (s.setWorker i w1).All P := by
  refine ⟨h.queue, h.senders, ?_⟩
  intro x hx
  rcases mem_setWorker hx with h1 | h1
  · exact h.workers x h1
  · subst h1; exact hw

/-- The chain on a string payload. -/
theorem chain_str (T : String → String) (cfg : PrefixSuffixWorker) (x : String)
    (hd : RequestHandler) :
    cfg.chain T ⟨.str x, hd⟩ = .str (cfg.prefixS ++ T x ++ cfg.suffixS) := by
  simp [PrefixSuffixWorker.chain, PrefixSuffixWorker.uppercase, PrefixSuffixWorker.append,
    PrefixSuffixWorker.prefix_, String.append_assoc]

/-- The chain on any other payload. -/
theorem chain_other (T : String → String) (cfg : PrefixSuffixWorker) (r : Request)
    (h : ∀ x, r.Data ≠ .str x) : cfg.chain T r = .nil := by
  unfold PrefixSuffixWorker.chain PrefixSuffixWorker.uppercase
  split
  · rfl
  · rename_i m1 hm
    split at hm
    · rename_i x hx
      exact absurd hx (h x)
    · cases hm

/-- Every recorded call passes the result of the chain on the request as it was submitted. -/
theorem call_chain {T : String → String} {c : Call} (h : c.Ok T) :
    c.arg = c.worker.chain T c.orig := by
  rcases h.kind with ⟨x, hx, _, ha⟩ | ⟨hne, _, ha⟩
  · have : c.orig = ⟨.str x, c.orig.Handler⟩ := by
      cases hc : c.orig with
      | mk d hdl => rw [hc] at hx; simp only at hx; rw [hx]
    rw [this, chain_str, ha, String.append_assoc]
  · rw [chain_other T c.worker c.orig hne, ha]

/-- No more calls have been made than requests submitted. -/
theorem log_length_le {T : String → String} {s : Sys} (hI : Inv T s) :
    s.log.length ≤ s.nextId := by
  have hnd : s.calledIds.Nodup := by
    rw [List.nodup_iff_count_le_one]
    intro k
    have := hI.once k
    simp only [Sys.occ] at this
    omega
  have hsub : s.calledIds ⊆ List.range s.nextId := by
    intro k hk
    rw [List.mem_range]
    by_contra hge
    have h1 := hI.unused k (by omega)
    have h2 := List.count_pos_iff.mpr hk
    simp only [Sys.occ] at h1
    omega
  have := (List.subperm_of_subset hnd hsub).length_le
  simpa [Sys.calledIds] using this

/-- A handler that always returns keeps every condition that does not look at the world. -/
theorem keeps_of_returns {T : String → String} {N : Nat} {r : Request} (h : r.Returns) :
    r.Keeps T N (fun _ _ => True) := by
  intro cfg n w _ _
  obtain ⟨w1, hw1⟩ := h (cfg.chain T r) w
  exact ⟨w1, hw1, trivial⟩

/-- The bookkeeping of a move inside one worker. -/
theorem facts_setWorker {T : String → String} {s : Sys} {i : Nat} {w w1 : Worker}
    (hi : s.workers[i]? = some w)
    (hd : w.DataOk T → w.Shape → w1.DataOk T)
    (hs : w.Shape → w1.Shape)
    (hdr : w1.up = .done → w.up = .done ∨ (s.closed = true ∧ s.queue = []))
    (hc : ∀ k, w1.ids.count k = w.ids.count k)
    (hwt : w1.weight < w.weight)
    (hall : ∀ P, Stable P → w.All P → w1.All P) :
    StageFacts T s (s.setWorker i w1) := by
  have hwm := List.getElem?_mem hi
  have hocc : ∀ k, (s.setWorker i w1).occ k = s.occ k := by
    intro k
    have := occ_setWorker s i w w1 hi k
    have := hc k
    omega
  refine ⟨?_, hocc, ?_, ?_, ?_, rfl, ?_, ?_, rfl, fun _ => rfl, Or.inl ⟨rfl, rfl⟩,
    List.length_set _ _ _⟩
  · intro hI
    apply inv_setWorker hI hi (hd (hI.data w hwm) (hI.shape w hwm)) (hs (hI.shape w hwm)) _ hc
    intro h
    rcases hdr h with h1 | h1
    · exact hI.drained w hwm h1
    · exact h1
  · intro k; exact Nat.le_refl _
  · intro k; exact Nat.le_refl _
  · have := weight_setWorker s i w w1 hi
    omega
  · intro P hP hA
    exact all_setWorker hA (hall P hP (hA.workers w hwm))
  · intro _ J _ hJ hc
    exact ⟨hc, hJ⟩

/-- The bookkeeping of a move that ends with a handler call. -/
theorem facts_invoke {T : String → String} {s : Sys} {i : Nat} {w w1 : Worker}
    {site : Site} {m : Msg} {arg : GoAny}
    (hi : s.workers[i]? = some w)
    (hd : w.DataOk T → w.Shape → w1.DataOk T)
    (hs : w.Shape → w1.Shape)
    (hdr : w1.up = .done → w.up = .done)
    (hc : ∀ k, w1.ids.count k + [m.id].count k = w.ids.count k)
    (hwt : w1.weight < w.weight)
    (hall : ∀ P, Stable P → w.All P → w1.All P ∧ P m)
    (hcall : w.DataOk T → ∀ o, (∃ wd, o = (m.orig.Handler arg wd).outcome) →
      Call.Ok T ⟨m.id, m.orig, w.cfg, site, arg, o⟩)
    (hh : w.DataOk T → m.msg.Handler = m.orig.Handler) :
    StageFacts T s (invoke (s.setWorker i w1) w.cfg site m arg) := by
  have hwm := List.getElem?_mem hi
  have hocc : ∀ k, (invoke (s.setWorker i w1) w.cfg site m arg).occ k = s.occ k := by
    intro k
    have := occ_setWorker s i w w1 hi k
    have := hc k
    rw [occ_invoke]
    omega
  have hinv : Inv T s → Inv T (invoke (s.setWorker i w1) w.cfg site m arg) := by
    intro hI
    have hD := hI.data w hwm
    apply inv_invoke hI hi (hd hD (hI.shape w hwm)) (hs (hI.shape w hwm)) _ hc (hcall hD) (hh hD)
    intro h
    exact hI.drained w hwm (hdr h)
  refine ⟨hinv, hocc, ?_, ?_, ?_, rfl, ?_, ?_, rfl, fun _ => rfl, Or.inr ⟨_, rfl, ?_⟩,
    List.length_set _ _ _⟩
  · intro k; exact Nat.le_refl _
  · intro k; exact Nat.le_refl _
  · have := weight_setWorker s i w w1 hi
    show (s.setWorker i w1).weight < s.weight
    omega
  · intro P hP hA
    have := all_setWorker (i := i) hA (hall P hP (hA.workers w hwm)).1
    exact ⟨this.queue, this.senders, this.workers⟩
  · intro hI J hA hJ hc
    have hD := hI.data w hwm
    have hr := (hall _ (fun _ _ h => h) (hA.workers w hwm)).2
    have harg : arg = w.cfg.chain T m.orig :=
      call_chain (hcall hD _ ⟨s.world, rfl⟩)
    have hlt : s.log.length < s.nextId := by
      have := log_length_le (hinv hI)
      simp only [invoke, Sys.setWorker, List.length_append, List.length_singleton] at this
      omega
    obtain ⟨wd, hwd, hJ1⟩ := hr w.cfg s.log.length s.world hlt hJ
    rw [← harg, ← hh hD] at hwd
    simp only [invoke, Sys.setWorker, hwd, HandlerResult.crash, HandlerResult.world,
      List.length_append, List.length_singleton]
    exact ⟨hc, hJ1⟩
  · simp only [invoke]
    cases m.msg.Handler arg (s.setWorker i w1).world <;> rfl

theorem pass1_facts {T : String → String} {s s1 : Sys} {i : Nat}
    (h : pass1 s i = some s1) : StageFacts T s s1 := by
  unfold pass1 at h
  split at h
  · cases h
  · rename_i w hw
    split at h
    · rename_i m hup hap
      cases h
      apply facts_setWorker hw
      · intro hD hS
        constructor <;> simp
        · exact hD.upSending m hup
        · exact hD.prGot
      · intro hS
        constructor <;> simp
        · exact hS.prNoSend
        · intro hp
          have := hS.prDone hp
          rw [hap] at this
          cases this
      · simp
      · intro k
        simp [Worker.ids, Stage.ids, hup, hap]
      · simp [Worker.weight, Stage.weightUp, Stage.weightAp, hup, hap]
      · intro P hP hA
        constructor <;> simp
        · exact hA.upSending m hup
        · exact hA.prGot
    · cases h

theorem pass2_facts {T : String → String} {s s1 : Sys} {i : Nat}
    (h : pass2 s i = some s1) : StageFacts T s s1 := by
  unfold pass2 at h
  split at h
  · cases h
  · rename_i w hw
    split at h
    · rename_i m hap hpr
      cases h
      apply facts_setWorker hw
      · intro hD hS
        constructor <;> simp
        · exact hD.upGot
        · exact hD.upSending
        · exact hD.apSending m hap
      · intro hS
        constructor <;> simp
      · simp
        intro h; exact Or.inl h
      · intro k
        simp [Worker.ids, Stage.ids, hap, hpr]
      · simp [Worker.weight, Stage.weightAp, Stage.weightPr, hap, hpr]
      · intro P hP hA
        constructor <;> simp
        · exact hA.upGot
        · exact hA.upSending
        · exact hA.apSending m hap
    · cases h

theorem closeUppercase_facts {T : String → String} {s s1 : Sys} {i : Nat}
    (h : closeUppercase s i = some s1) : StageFacts T s s1 := by
  unfold closeUppercase at h
  split at h
  · cases h
  · rename_i w hw
    split at h
    · rename_i hup hcl hq
      cases h
      apply facts_setWorker hw
      · intro hD hS
        constructor <;> simp
        · exact hD.apGot
        · exact hD.apSending
        · exact hD.prGot
      · intro hS
        constructor <;> simp
        · exact hS.prNoSend
        · exact hS.prDone
      · intro _; exact Or.inr ⟨hcl, hq⟩
      · intro k
        simp [Worker.ids, Stage.ids, hup]
      · simp [Worker.weight, Stage.weightUp, hup]
      · intro P hP hA
        constructor <;> simp
        · exact hA.apGot
        · exact hA.apSending
        · exact hA.prGot
    · cases h

theorem closeAppend_facts {T : String → String} {s s1 : Sys} {i : Nat}
    (h : closeAppend s i = some s1) : StageFacts T s s1 := by
  unfold closeAppend at h
  split at h
  · cases h
  · rename_i w hw
    split at h
    · rename_i hap hup
      cases h
      apply facts_setWorker hw
      · intro hD hS
        constructor <;> simp
        · exact hD.upGot
        · exact hD.upSending
        · exact hD.prGot
      · intro hS
        constructor <;> simp
        · exact hS.prNoSend
        · exact hup
      · simp
        intro h; exact Or.inl h
      · intro k
        simp [Worker.ids, Stage.ids, hap]
      · simp [Worker.weight, Stage.weightAp, hap]
      · intro P hP hA
        constructor <;> simp
        · exact hA.upGot
        · exact hA.upSending
        · exact hA.prGot
    · cases h

theorem exitPrefix_facts {T : String → String} {s s1 : Sys} {i : Nat}
    (h : exitPrefix s i = some s1) : StageFacts T s s1 := by
  unfold exitPrefix at h
  split at h
  · cases h
  · rename_i w hw
    split at h
    · rename_i hpr hap
      cases h
      apply facts_setWorker hw
      · intro hD hS
        constructor <;> simp
        · exact hD.upGot
        · exact hD.upSending
        · exact hD.apGot
        · exact hD.apSending
      · intro hS
        constructor <;> simp
        · exact hS.apDone
        · exact hap
      · simp
        intro h; exact Or.inl h
      · intro k
        simp [Worker.ids, Stage.ids, hpr]
      · simp [Worker.weight, Stage.weightPr, hpr]
      · intro P hP hA
        constructor <;> simp
        · exact hA.upGot
        · exact hA.upSending
        · exact hA.apGot
        · exact hA.apSending
    · cases h

theorem ids_count (w : Worker) (k : Nat) :
    w.ids.count k = w.up.ids.count k + w.ap.ids.count k + w.pr.ids.count k := by
  simp only [Worker.ids, List.count_append]

theorem Stage.ids_waiting : Stage.waiting.ids = [] := rfl

theorem Stage.ids_done : Stage.done.ids = [] := rfl

theorem Stage.ids_got (m : Msg) : (Stage.got m).ids = [m.id] := rfl

theorem Stage.ids_sending (m : Msg) : (Stage.sending m).ids = [m.id] := rfl

theorem uppercase_forward {T : String → String} {cfg : PrefixSuffixWorker} {r r1 : Request}
    (h : cfg.uppercase T r = .forward r1) :
    ∃ x, r.Data = .str x ∧ r1 = { r with Data := .str (T x) } := by
  unfold PrefixSuffixWorker.uppercase at h
  split at h
  · rename_i x hx
    cases h
    exact ⟨x, hx, rfl⟩
  · cases h

theorem uppercase_fail {T : String → String} {cfg : PrefixSuffixWorker} {r : Request}
    (h : cfg.uppercase T r = .fail) : ∀ x, r.Data ≠ .str x := by
  unfold PrefixSuffixWorker.uppercase at h
  split at h
  · cases h
  · rename_i hx
    exact fun x hx1 => hx x hx1

theorem append_forward {cfg : PrefixSuffixWorker} {r r1 : Request}
    (h : cfg.append r = .forward r1) :
    ∃ x, r.Data = .str x ∧ r1 = { r with Data := .str (x ++ cfg.suffixS) } := by
  unfold PrefixSuffixWorker.append at h
  split at h
  · rename_i x hx
    cases h
    exact ⟨x, hx, rfl⟩
  · cases h

theorem append_fail {cfg : PrefixSuffixWorker} {r : Request}
    (h : cfg.append r = .fail) : ∀ x, r.Data ≠ .str x := by
  unfold PrefixSuffixWorker.append at h
  split at h
  · cases h
  · rename_i hx
    exact fun x hx1 => hx x hx1

theorem prefix_some {cfg : PrefixSuffixWorker} {r : Request} {a : GoAny}
    (h : cfg.prefix_ r = some a) :
    ∃ x, r.Data = .str x ∧ a = .str (cfg.prefixS ++ x) := by
  unfold PrefixSuffixWorker.prefix_ at h
  split at h
  · rename_i x hx
    cases h
    exact ⟨x, hx, rfl⟩
  · cases h

theorem prefix_none {cfg : PrefixSuffixWorker} {r : Request}
    (h : cfg.prefix_ r = none) : ∀ x, r.Data ≠ .str x := by
  unfold PrefixSuffixWorker.prefix_ at h
  split at h
  · cases h
  · rename_i hx
    exact fun x hx1 => hx x hx1

theorem uppercase_facts {T : String → String} {s s1 : Sys} {i : Nat}
    (h : uppercase T s i = some s1) : StageFacts T s s1 := by
  unfold uppercase at h
  split at h
  · cases h
  · rename_i w hw
    split at h
    · rename_i m hup
      split at h
      · rename_i msg1 hb
        cases h
        obtain ⟨x, hx, hmsg⟩ := uppercase_forward hb
        apply facts_setWorker hw
        · intro hD hS
          have hf : m.msg = m.orig := hD.upGot m hup
          constructor <;> simp
          · refine ⟨x, ?_, ?_, ?_⟩
            · rw [← hf]; exact hx
            · rw [hmsg]
            · rw [hmsg, ← hf]
          · exact hD.apGot
          · exact hD.apSending
          · exact hD.prGot
        · intro hS
          constructor <;> simp
          · exact hS.prNoSend
          · intro hp
            have := hS.apDone hp
            rw [hup] at this
            cases this
          · exact hS.prDone
        · simp
        · intro k
          simp [Worker.ids, Stage.ids, hup]
        · simp [Worker.weight, Stage.weightUp, hup]
        · intro P hP hA
          constructor <;> simp
          · exact hP m msg1 (hA.upGot m hup)
          · exact hA.apGot
          · exact hA.apSending
          · exact hA.prGot
      · rename_i hb
        cases h
        have hne := uppercase_fail hb
        apply facts_invoke hw
        · intro hD hS
          constructor <;> simp
          · exact hD.apGot
          · exact hD.apSending
          · exact hD.prGot
        · intro hS
          constructor <;> simp
          · exact hS.prNoSend
          · intro hp
            have := hS.apDone hp
            rw [hup] at this
            cases this
          · exact hS.prDone
        · simp
        · intro k
          rw [ids_count, ids_count]
          simp only [hup, Stage.ids_got, Stage.ids_waiting, List.count_nil]
          omega
        · simp [Worker.weight, Stage.weightUp, hup]
        · intro P hP hA
          refine ⟨?_, hA.upGot m hup⟩
          constructor <;> simp
          · exact hA.apGot
          · exact hA.apSending
          · exact hA.prGot
        · intro hD o ho
          have hf : m.msg = m.orig := hD.upGot m hup
          refine ⟨ho, Or.inr ⟨?_, rfl, rfl⟩⟩
          intro x hx
          exact hne x (by rw [hf]; exact hx)
        · intro hD
          rw [hD.upGot m hup]
    · cases h

theorem append_facts {T : String → String} {s s1 : Sys} {i : Nat}
    (h : append s i = some s1) : StageFacts T s s1 := by
  unfold append at h
  split at h
  · cases h
  · rename_i w hw
    split at h
    · rename_i m hap
      split at h
      · rename_i msg1 hb
        cases h
        obtain ⟨u, hu, hmsg⟩ := append_forward hb
        apply facts_setWorker hw
        · intro hD hS
          obtain ⟨x, hx, hdat, hh⟩ := hD.apGot m hap
          have hux : u = T x := by
            rw [hdat] at hu
            cases hu
            rfl
          constructor <;> simp
          · exact hD.upGot
          · exact hD.upSending
          · refine ⟨x, hx, ?_, ?_⟩
            · rw [hmsg, hux]
            · rw [hmsg]; exact hh
          · exact hD.prGot
        · intro hS
          constructor <;> simp
          · exact hS.prNoSend
          · intro hp
            have := hS.prDone hp
            rw [hap] at this
            cases this
        · simp
          intro h; exact Or.inl h
        · intro k
          simp [Worker.ids, Stage.ids, hap]
        · simp [Worker.weight, Stage.weightAp, hap]
        · intro P hP hA
          constructor <;> simp
          · exact hA.upGot
          · exact hA.upSending
          · exact hP m msg1 (hA.apGot m hap)
          · exact hA.prGot
      · rename_i hb
        cases h
        have hne := append_fail hb
        apply facts_invoke hw
        · intro hD hS
          constructor <;> simp
          · exact hD.upGot
          · exact hD.upSending
          · exact hD.prGot
        · intro hS
          constructor <;> simp
          · exact hS.prNoSend
          · intro hp
            have := hS.prDone hp
            rw [hap] at this
            cases this
        · simp
        · intro k
          rw [ids_count, ids_count]
          simp only [hap, Stage.ids_got, Stage.ids_waiting, List.count_nil]
          omega
        · simp [Worker.weight, Stage.weightAp, hap]
        · intro P hP hA
          refine ⟨?_, hA.apGot m hap⟩
          constructor <;> simp
          · exact hA.upGot
          · exact hA.upSending
          · exact hA.prGot
        · intro hD o ho
          obtain ⟨x, hx, hdat, hh⟩ := hD.apGot m hap
          exact absurd hdat (hne _)
        · intro hD
          obtain ⟨x, hx, hdat, hh⟩ := hD.apGot m hap
          exact hh
    · cases h

theorem prefixStage_facts {T : String → String} {s s1 : Sys} {i : Nat}
    (h : prefixStage s i = some s1) : StageFacts T s s1 := by
  unfold prefixStage at h
  split at h
  · cases h
  · rename_i w hw
    split at h
    · rename_i m hpr
      have hleft : ∀ (site : Site) (a : GoAny),
          (w.DataOk T → ∀ o, (∃ wd, o = (m.orig.Handler a wd).outcome) →
            Call.Ok T ⟨m.id, m.orig, w.cfg, site, a, o⟩) →
          StageFacts T s (invoke (s.setWorker i { w with pr := .waiting }) w.cfg site m a) := by
        intro site a hcall
        apply facts_invoke hw
        · intro hD hS
          constructor <;> simp
          · exact hD.upGot
          · exact hD.upSending
          · exact hD.apGot
          · exact hD.apSending
        · intro hS
          constructor <;> simp
          · exact hS.apDone
        · simp
        · intro k
          rw [ids_count, ids_count]
          simp only [hpr, Stage.ids_got, Stage.ids_waiting, List.count_nil]
          omega
        · simp [Worker.weight, Stage.weightPr, hpr]
        · intro P hP hA
          refine ⟨?_, hA.prGot m hpr⟩
          constructor <;> simp
          · exact hA.upGot
          · exact hA.upSending
          · exact hA.apGot
          · exact hA.apSending
        · exact hcall
        · intro hD
          obtain ⟨x, hx, hdat, hh⟩ := hD.prGot m hpr
          exact hh
      split at h
      · rename_i a hb
        cases h
        obtain ⟨u, hu, ha⟩ := prefix_some hb
        apply hleft
        intro hD o ho
        obtain ⟨x, hx, hdat, hh⟩ := hD.prGot m hpr
        have hux : u = T x ++ w.cfg.suffixS := by
          rw [hdat] at hu
          cases hu
          rfl
        refine ⟨ho, Or.inl ⟨x, hx, rfl, ?_⟩⟩
        rw [ha, hux]
      · rename_i hb
        cases h
        have hne := prefix_none hb
        apply hleft
        intro hD o ho
        obtain ⟨x, hx, hdat, hh⟩ := hD.prGot m hpr
        exact absurd hdat (hne _)
    · cases h

/-- The bookkeeping of a receive from `inCh`: `m` goes to `uppercase` of worker
`i`, and `q` and `bs` are what is left of the buffer and the blocked senders. -/
theorem facts_receive {T : String → String} {s : Sys} {i : Nat} {w : Worker} {m : Msg}
    {q : List Msg} {bs : List Blocked}
    (hi : s.workers[i]? = some w) (hup : w.up = .waiting)
    (hopen : ¬ (s.closed = true ∧ s.queue = []))
    (hq : ∀ x ∈ q, x ∈ s.queue ∨ ∃ b ∈ s.senders, b.m = x)
    (hb : ∀ b ∈ bs, b ∈ s.senders)
    (hm : m ∈ s.queue ∨ ∃ b ∈ s.senders, b.m = m)
    (hcnt : ∀ k, (q.map (fun m => m.id)).count k + (bs.map (fun b => b.m.id)).count k
      + [m.id].count k = s.queuedIds.count k + s.blockedIds.count k)
    (hblk : ∀ k, (bs.map (fun b => b.m.id)).count k ≤ s.blockedIds.count k)
    (hlen : q.length + bs.length + 1 = s.queue.length + s.senders.length)
    (hdrawn : s.closed = true → bs = s.senders) :
    StageFacts T s
      (Sys.setWorker { s with queue := q, senders := bs } i { w with up := .got m }) := by
  have hwm := List.getElem?_mem hi
  have hocc : ∀ k, (Sys.setWorker { s with queue := q, senders := bs } i
      { w with up := .got m }).occ k = s.occ k := by
    intro k
    have h1 := occ_setWorker { s with queue := q, senders := bs } i w { w with up := .got m } hi k
    have h2 := hcnt k
    rw [ids_count, ids_count] at h1
    simp only [hup, Stage.ids_got, Stage.ids_waiting, List.count_nil] at h1
    have h3 : Sys.occ { s with queue := q, senders := bs } k + [m.id].count k = s.occ k := by
      simp only [Sys.occ, Sys.queuedIds, Sys.blockedIds, Sys.inflightIds, Sys.calledIds] at h2 ⊢
      omega
    omega
  have hfresh : ∀ P : Msg → Prop, (∀ x ∈ s.queue, P x) → (∀ b ∈ s.senders, P b.m) →
      (∀ x ∈ q, P x) ∧ (∀ b ∈ bs, P b.m) ∧ P m := by
    intro P h1 h2
    refine ⟨?_, ?_, ?_⟩
    · intro x hx
      rcases hq x hx with h | ⟨b, hb1, hb2⟩
      · exact h1 x h
      · rw [← hb2]; exact h2 b hb1
    · intro b hb1
      exact h2 b (hb b hb1)
    · rcases hm with h | ⟨b, hb1, hb2⟩
      · exact h1 m h
      · rw [← hb2]; exact h2 b hb1
  refine ⟨?_, hocc, ?_, ?_, ?_, rfl, ?_, ?_, rfl, ?_, Or.inl ⟨rfl, rfl⟩, List.length_set _ _ _⟩
  · intro hI
    have hD := hI.data w hwm
    have hS := hI.shape w hwm
    obtain ⟨f1, f2, f3⟩ := hfresh Msg.Fresh hI.queue hI.senders
    refine ⟨?_, ?_, f1, f2, ?_, ?_, ?_, hI.calls⟩
    · intro k; rw [hocc]; exact hI.once k
    · intro k hk; rw [hocc]; exact hI.unused k hk
    · intro x hx
      rcases mem_setWorker hx with h | h
      · exact hI.data x h
      · subst h
        constructor <;> simp
        · exact f3
        · exact hD.apGot
        · exact hD.apSending
        · exact hD.prGot
    · intro x hx
      rcases mem_setWorker hx with h | h
      · exact hI.shape x h
      · subst h
        constructor <;> simp
        · exact hS.prNoSend
        · intro hp
          have := hS.apDone hp
          rw [hup] at this
          cases this
        · exact hS.prDone
    · intro x hx hdone
      rcases mem_setWorker hx with h | h
      · exact absurd (hI.drained x h hdone) hopen
      · subst h
        simp at hdone
  · intro k
    have := hcnt k
    simp only [Sys.setWorker, Sys.queuedIds, Sys.blockedIds] at this ⊢
    omega
  · intro k
    exact hblk k
  · have h1 := weight_setWorker { s with queue := q, senders := bs } i w { w with up := .got m } hi
    simp only [Worker.weight, Stage.weightUp, hup] at h1
    have h3 : Sys.weight { s with queue := q, senders := bs } + 6 = s.weight := by
      simp only [Sys.weight]
      omega
    omega
  · intro P hP hA
    obtain ⟨f1, f2, f3⟩ := hfresh P hA.queue hA.senders
    have hAw := hA.workers w hwm
    refine ⟨f1, f2, ?_⟩
    intro x hx
    rcases mem_setWorker hx with h | h
    · exact hA.workers x h
    · subst h
      constructor <;> simp
      · exact f3
      · exact hAw.apGot
      · exact hAw.apSending
      · exact hAw.prGot
  · intro _ J _ hJ hc
    exact ⟨hc, hJ⟩
  · intro hcl
    simp only [Sys.setWorker, Sys.blockedIds, hdrawn hcl]

theorem receive_facts {T : String → String} {s s1 : Sys} {i : Nat}
    (h : receive s i = some s1) : StageFacts T s s1 := by
  unfold receive at h
  split at h
  · cases h
  · rename_i w hw
    split at h
    · rename_i hup
      split at h
      · rename_i m q hq
        split at h
        · rename_i b bs hcl hbs
          cases h
          apply facts_receive hw hup
          · simp [hq]
          · intro x hx
            simp only [List.mem_append, List.mem_singleton] at hx
            rcases hx with h1 | h1
            · left; rw [hq]; exact List.mem_cons_of_mem _ h1
            · right; exact ⟨b, by rw [hbs]; exact List.mem_cons_self _ _, h1.symm⟩
          · intro x hx
            rw [hbs]; exact List.mem_cons_of_mem _ hx
          · left; rw [hq]; exact List.mem_cons_self _ _
          · intro k
            simp only [Sys.queuedIds, Sys.blockedIds, hq, hbs, List.map_append, List.map_cons,
              List.map_nil, List.count_append, List.count_cons, List.count_nil]
            omega
          · intro k
            simp only [Sys.blockedIds, hbs, List.map_cons, List.count_cons]
            omega
          · simp [hq, hbs]
            omega
          · intro h1; rw [hcl] at h1; cases h1
        · cases h
          apply facts_receive hw hup
          · simp [hq]
          · intro x hx
            left; rw [hq]; exact List.mem_cons_of_mem _ hx
          · intro x hx
            exact hx
          · left; rw [hq]; exact List.mem_cons_self _ _
          · intro k
            simp only [Sys.queuedIds, Sys.blockedIds, hq, List.map_cons,
              List.map_nil, List.count_cons, List.count_nil]
            omega
          · intro k
            exact Nat.le_refl _
          · simp [hq]
            omega
          · intro _; rfl
      · rename_i hq
        split at h
        · rename_i b bs hcl hbs
          cases h
          apply facts_receive hw hup
          · simp [hcl]
          · intro x hx
            left; exact hx
          · intro x hx
            rw [hbs]; exact List.mem_cons_of_mem _ hx
          · right; exact ⟨b, by rw [hbs]; exact List.mem_cons_self _ _, rfl⟩
          · intro k
            simp only [Sys.queuedIds, Sys.blockedIds, hq, hbs, List.map_cons,
              List.map_nil, List.count_cons, List.count_nil]
            omega
          · intro k
            simp only [Sys.blockedIds, hbs, List.map_cons, List.count_cons]
            omega
          · simp [hq, hbs]
          · intro h1; rw [hcl] at h1; cases h1
        · cases h
    · cases h

/-- Every move of a stage goroutine keeps the books. -/
theorem stage_facts {T : String → String} {s s1 : Sys} {a : Action}
    (ha : a.isStage = true) (h : step T s a = some s1) : StageFacts T s s1 := by
  unfold step at h
  split at h
  · cases h
  · cases a <;> simp [Action.isStage] at ha <;> simp only at h
    · exact receive_facts h
    · exact uppercase_facts h
    · exact pass1_facts h
    · exact append_facts h
    · exact pass2_facts h
    · exact prefixStage_facts h
    · exact closeUppercase_facts h
    · exact closeAppend_facts h
    · exact exitPrefix_facts h

theorem inv_of_eq {T : String → String} {s s1 : Sys} (hI : Inv T s)
    (hq : s1.queue = s.queue) (hb : s1.senders = s.senders) (hw : s1.workers = s.workers)
    (hl : s1.log = s.log) (hn : s.nextId ≤ s1.nextId)
    (hc : s.closed = true → s1.closed = true) : Inv T s1 := by
  have hocc : ∀ k, s1.occ k = s.occ k := by
    intro k
    simp only [Sys.occ, Sys.queuedIds, Sys.blockedIds, Sys.inflightIds, Sys.calledIds,
      hq, hb, hw, hl]
  refine ⟨?_, ?_, ?_, ?_, ?_, ?_, ?_, ?_⟩
  · intro k; rw [hocc]; exact hI.once k
  · intro k hk; rw [hocc]; exact hI.unused k (Nat.le_trans hn hk)
  · rw [hq]; exact hI.queue
  · rw [hb]; exact hI.senders
  · rw [hw]; exact hI.data
  · rw [hw]; exact hI.shape
  · rw [hw, hq]
    intro w hw1 hd
    obtain ⟨h1, h2⟩ := hI.drained w hw1 hd
    exact ⟨hc h1, h2⟩
  · rw [hl]; exact hI.calls

theorem NewDispatcher_inv {T : String → String} {world : World} {b : Int} {s : Sys}
    (h : NewDispatcher world b = some s) : Inv T s := by
  unfold NewDispatcher at h
  split at h
  · cases h
  · cases h
    constructor <;>
      simp [fresh, Sys.occ, Sys.queuedIds, Sys.blockedIds, Sys.inflightIds, Sys.calledIds]

theorem LaunchWorker_inv {T : String → String} {s : Sys} (cfg : PrefixSuffixWorker)
    (hI : Inv T s) : Inv T (LaunchWorker s cfg) := by
  have hocc : ∀ k, (LaunchWorker s cfg).occ k = s.occ k := by
    intro k
    simp [Sys.occ, Sys.queuedIds, Sys.blockedIds, Sys.inflightIds, Sys.calledIds,
      LaunchWorker, Worker.ids, Stage.ids]
  refine ⟨?_, ?_, hI.queue, hI.senders, ?_, ?_, ?_, hI.calls⟩
  · intro k; rw [hocc]; exact hI.once k
  · intro k hk; rw [hocc]; exact hI.unused k hk
  · intro w hw
    simp only [LaunchWorker, List.mem_append, List.mem_singleton] at hw
    rcases hw with h | h
    · exact hI.data w h
    · subst h
      constructor <;> simp
  · intro w hw
    simp only [LaunchWorker, List.mem_append, List.mem_singleton] at hw
    rcases hw with h | h
    · exact hI.shape w h
    · subst h
      constructor <;> simp
  · intro w hw hd
    simp only [LaunchWorker, List.mem_append, List.mem_singleton] at hw
    rcases hw with h | h
    · exact hI.drained w h hd
    · subst h
      simp at hd

theorem MakeRequest_inv {T : String → String} {s : Sys} (r : Request)
    (hI : Inv T s) : Inv T (MakeRequest s r) := by
  have h0 := hI.unused s.nextId (Nat.le_refl _)
  by_cases hc : s.closed = true
  · have : MakeRequest s r = { s with crashed := some .sendOnClosed, nextId := s.nextId + 1 } := by
      simp [MakeRequest, hc]
    rw [this]
    exact inv_of_eq hI rfl rfl rfl rfl (Nat.le_succ _) (fun h => h)
  · have hnd : ∀ w ∈ s.workers, w.up ≠ .done := by
      intro w hw hd
      exact hc (hI.drained w hw hd).1
    by_cases hl : s.queue.length < s.cap
    · have : MakeRequest s r =
          { s with queue := s.queue ++ [⟨s.nextId, r, r⟩], nextId := s.nextId + 1 } := by
        simp [MakeRequest, hc, hl]
      rw [this]
      have hocc : ∀ k, Sys.occ
          { s with queue := s.queue ++ [⟨s.nextId, r, r⟩], nextId := s.nextId + 1 } k =
          s.occ k + [s.nextId].count k := by
        intro k
        simp only [Sys.occ, Sys.queuedIds, Sys.blockedIds, Sys.inflightIds, Sys.calledIds,
          List.map_append, List.count_append, List.map_cons, List.map_nil]
        omega
      refine ⟨?_, ?_, ?_, hI.senders, hI.data, hI.shape, ?_, hI.calls⟩
      · intro k
        rw [hocc]
        by_cases hk : s.nextId = k
        · subst hk; simp [h0]
        · have := hI.once k
          have : [s.nextId].count k = 0 :=
            List.count_eq_zero.mpr (fun hm => hk (List.mem_singleton.mp hm).symm)
          omega
      · intro k hk
        rw [hocc]
        have hk1 : s.nextId + 1 ≤ k := hk
        have h1 : ¬ s.nextId = k := by omega
        have h2 := hI.unused k (by omega)
        have : [s.nextId].count k = 0 :=
          List.count_eq_zero.mpr (fun hm => h1 (List.mem_singleton.mp hm).symm)
        omega
      · intro m hm
        simp only [List.mem_append, List.mem_singleton] at hm
        rcases hm with h | h
        · exact hI.queue m h
        · subst h; rfl
      · intro w hw hd
        exact absurd hd (hnd w hw)
    · have : MakeRequest s r =
          { s with senders := s.senders ++ [⟨⟨s.nextId, r, r⟩, s.now⟩], nextId := s.nextId + 1 } := by
        simp [MakeRequest, hc, hl]
      rw [this]
      have hocc : ∀ k, Sys.occ
          { s with senders := s.senders ++ [⟨⟨s.nextId, r, r⟩, s.now⟩], nextId := s.nextId + 1 } k =
          s.occ k + [s.nextId].count k := by
        intro k
        simp only [Sys.occ, Sys.queuedIds, Sys.blockedIds, Sys.inflightIds, Sys.calledIds,
          List.map_append, List.count_append, List.map_cons, List.map_nil]
        omega
      refine ⟨?_, ?_, hI.queue, ?_, hI.data, hI.shape, ?_, hI.calls⟩
      · intro k
        rw [hocc]
        by_cases hk : s.nextId = k
        · subst hk; simp [h0]
        · have := hI.once k
          have : [s.nextId].count k = 0 :=
            List.count_eq_zero.mpr (fun hm => hk (List.mem_singleton.mp hm).symm)
          omega
      · intro k hk
        rw [hocc]
        have hk1 : s.nextId + 1 ≤ k := hk
        have h1 : ¬ s.nextId = k := by omega
        have h2 := hI.unused k (by omega)
        have : [s.nextId].count k = 0 :=
          List.count_eq_zero.mpr (fun hm => h1 (List.mem_singleton.mp hm).symm)
        omega
      · intro m hm
        simp only [List.mem_append, List.mem_singleton] at hm
        rcases hm with h | h
        · exact hI.senders m h
        · subst h; rfl
      · intro w hw hd
        exact absurd hd (hnd w hw)

theorem Stop_inv {T : String → String} {s : Sys} (hI : Inv T s) : Inv T (Stop s) := by
  unfold Stop
  split
  · exact inv_of_eq hI rfl rfl rfl rfl (Nat.le_refl _) (fun h => h)
  · exact inv_of_eq hI rfl rfl rfl rfl (Nat.le_refl _) (fun _ => rfl)

theorem count_map_eraseIdx {α : Type} (f : α → Nat) (l : List α) (i k : Nat) :
    ((l.eraseIdx i).map f).count k ≤ (l.map f).count k :=
  List.Sublist.count_le ((List.eraseIdx_sublist l i).map f) k

theorem timeout_inv {T : String → String} {s s1 : Sys} {k : Nat} (hI : Inv T s)
    (h : timeout s k = some s1) : Inv T s1 := by
  unfold timeout at h
  split at h
  · split at h
    · cases h
      have hocc : ∀ j, Sys.occ { s with senders := s.senders.eraseIdx k } j ≤ s.occ j := by
        intro j
        have := count_map_eraseIdx (fun b : Blocked => b.m.id) s.senders k j
        simp only [Sys.occ, Sys.queuedIds, Sys.blockedIds, Sys.inflightIds, Sys.calledIds]
        omega
      refine ⟨?_, ?_, hI.queue, ?_, hI.data, hI.shape, hI.drained, hI.calls⟩
      · intro j
        exact Nat.le_trans (hocc j) (hI.once j)
      · intro j hj
        have := hocc j
        have := hI.unused j hj
        omega
      · intro b hb
        exact hI.senders b (List.mem_of_mem_eraseIdx hb)
    · cases h
  · cases h

theorem sendPanic_inv {T : String → String} {s s1 : Sys} (hI : Inv T s)
    (h : sendPanic s = some s1) : Inv T s1 := by
  unfold sendPanic at h
  split at h
  · cases h
    exact inv_of_eq hI rfl rfl rfl rfl (Nat.le_refl _) (fun h => h)
  · cases h

/-- Every transition keeps the invariant. -/
theorem step_inv {T : String → String} {s s1 : Sys} {a : Action} (hI : Inv T s)
    (h : step T s a = some s1) : Inv T s1 := by
  by_cases ha : a.isStage = true
  · exact (stage_facts ha h).inv hI
  · unfold step at h
    split at h
    · cases h
    · cases a <;> simp [Action.isStage] at ha <;> simp only at h
      · cases h; exact LaunchWorker_inv _ hI
      · cases h; exact MakeRequest_inv _ hI
      · cases h; exact Stop_inv hI
      · cases h; exact inv_of_eq hI rfl rfl rfl rfl (Nat.le_refl _) (fun h => h)
      · exact timeout_inv hI h
      · exact sendPanic_inv hI h

/-- Every run keeps the invariant. -/
theorem exec_inv {T : String → String} {s s1 : Sys} {as : List Action} (hI : Inv T s)
    (h : exec T s as = some s1) : Inv T s1 := by
  induction as generalizing s with
  | nil =>
    simp only [exec] at h
    cases h
    exact hI
  | cons a as ih =>
    simp only [exec] at h
    cases hs : step T s a with
    | none => rw [hs] at h; cases h
    | some s2 =>
      rw [hs] at h
      exact ih (step_inv hI hs) h

/-- Every state a program reaches from `NewDispatcher` satisfies the invariant. -/
theorem reach_inv {T : String → String} {world : World} {b : Int} {s0 s : Sys}
    {as : List Action} (h0 : NewDispatcher world b = some s0) (h : exec T s0 as = some s) :
    Inv T s :=
  exec_inv (NewDispatcher_inv h0) h

/-- In a state where no stage can move, no worker holds a request. -/
theorem quiet_idle {T : String → String} {s : Sys} (hI : Inv T s) (hcr : s.crashed = none)
    (hq : s.Quiet T) : ∀ w ∈ s.workers,
      (w.up = .waiting ∨ w.up = .done) ∧ (w.ap = .waiting ∨ w.ap = .done) ∧
      (w.pr = .waiting ∨ w.pr = .done) := by
  intro w hw
  obtain ⟨i, hi⟩ := List.mem_iff_getElem?.mp hw
  have hS := hI.shape w hw
  have hpr : w.pr = .waiting ∨ w.pr = .done := by
    cases hp : w.pr with
    | waiting => exact Or.inl rfl
    | done => exact Or.inr rfl
    | sending m => exact absurd hp (hS.prNoSend m)
    | got m =>
      have h := hq (.prefixStage i) rfl
      simp only [step, hcr, prefixStage, hi, hp] at h
      split at h <;> cases h
  have hap : w.ap = .waiting ∨ w.ap = .done := by
    cases ha : w.ap with
    | waiting => exact Or.inl rfl
    | done => exact Or.inr rfl
    | got m =>
      have h := hq (.append i) rfl
      simp only [step, hcr, append, hi, ha] at h
      split at h <;> cases h
    | sending m =>
      rcases hpr with hp | hp
      · have h := hq (.pass2 i) rfl
        simp only [step, hcr, pass2, hi, ha, hp] at h
        cases h
      · have := hS.prDone hp
        rw [ha] at this
        cases this
  have hup : w.up = .waiting ∨ w.up = .done := by
    cases hu : w.up with
    | waiting => exact Or.inl rfl
    | done => exact Or.inr rfl
    | got m =>
      have h := hq (.uppercase i) rfl
      simp only [step, hcr, uppercase, hi, hu] at h
      split at h <;> cases h
    | sending m =>
      rcases hap with ha | ha
      · have h := hq (.pass1 i) rfl
        simp only [step, hcr, pass1, hi, hu, ha] at h
        cases h
      · have := hS.apDone ha
        rw [hu] at this
        cases this
  exact ⟨hup, hap, hpr⟩

/-- In a state where no stage can move, nothing is in flight. -/
theorem quiet_inflight {T : String → String} {s : Sys} (hI : Inv T s) (hcr : s.crashed = none)
    (hq : s.Quiet T) : s.inflightIds = [] := by
  have h := quiet_idle hI hcr hq
  simp only [Sys.inflightIds, List.flatten_eq_nil_iff, List.mem_map]
  rintro l ⟨w, hw, rfl⟩
  obtain ⟨h1, h2, h3⟩ := h w hw
  rcases h1 with h1 | h1 <;> rcases h2 with h2 | h2 <;> rcases h3 with h3 | h3 <;>
    simp [Worker.ids, Stage.ids, h1, h2, h3]

/-- With a worker attached and `inCh` closed, a state where no stage can move
has an empty buffer. -/
theorem quiet_queue {T : String → String} {s : Sys} (hI : Inv T s) (hcr : s.crashed = none)
    (hq : s.Quiet T) (hcl : s.closed = true) (hw : s.workers ≠ []) : s.queue = [] := by
  obtain ⟨w, ws, hws⟩ := List.exists_cons_of_ne_nil hw
  have hi : s.workers[0]? = some w := by rw [hws]; simp
  have hm := List.getElem?_mem hi
  rcases (quiet_idle hI hcr hq w hm).1 with hu | hu
  · cases hqu : s.queue with
    | nil => rfl
    | cons m q =>
      have h := hq (.receive 0) rfl
      simp only [step, hcr, receive, hi, hu, hqu, hcl] at h
      cases h
  · exact (hI.drained w hm hu).2

/-- What a run of stage moves does to the bookkeeping. -/
theorem run_facts {T : String → String} {s s1 : Sys} {as : List Action}
    (hs : stageRun as) (h : exec T s as = some s1) :
    (∀ k, s1.occ k = s.occ k) ∧
    (∀ k, s1.queuedIds.count k + s1.blockedIds.count k ≤
      s.queuedIds.count k + s.blockedIds.count k) ∧
    (∀ k, s1.blockedIds.count k ≤ s.blockedIds.count k) ∧
    as.length + s1.weight ≤ s.weight ∧
    s1.closed = s.closed ∧
    (s.closed = true → s1.blockedIds = s.blockedIds) ∧
    s1.workers.length = s.workers.length := by
  induction as generalizing s with
  | nil =>
    simp only [exec] at h
    cases h
    simp
  | cons a as ih =>
    simp only [exec] at h
    cases hst : step T s a with
    | none => rw [hst] at h; cases h
    | some s2 =>
      rw [hst] at h
      have hf := stage_facts (T := T) (hs a (List.mem_cons_self _ _)) hst
      obtain ⟨h1, h2, h3, h4, h5, h6, h7⟩ := ih (fun b hb => hs b (List.mem_cons_of_mem _ hb)) h
      refine ⟨?_, ?_, ?_, ?_, ?_, ?_, by rw [h7, hf.crew]⟩
      · intro k; rw [h1, hf.occ]
      · intro k; exact Nat.le_trans (h2 k) (hf.waiting k)
      · intro k; exact Nat.le_trans (h3 k) (hf.blocked k)
      · have := hf.weight
        simp only [List.length_cons]
        omega
      · rw [h5, hf.closed]
      · intro hc
        rw [h6 (by rw [hf.closed]; exact hc), hf.drawn hc]

/-- With handlers that keep `J`, a run of stage moves does not end the process. -/
theorem run_alive {T : String → String} {s s1 : Sys} {as : List Action}
    (hs : stageRun as) (h : exec T s as = some s1) (hI : Inv T s) (J : Nat → World → Prop)
    (hA : s.All (fun m => m.orig.Keeps T s.nextId J)) (hJ : J s.log.length s.world)
    (hcr : s.crashed = none) : s1.crashed = none ∧ J s1.log.length s1.world := by
  induction as generalizing s with
  | nil =>
    simp only [exec] at h
    cases h
    exact ⟨hcr, hJ⟩
  | cons a as ih =>
    simp only [exec] at h
    cases hst : step T s a with
    | none => rw [hst] at h; cases h
    | some s2 =>
      rw [hst] at h
      have hf := stage_facts (T := T) (hs a (List.mem_cons_self _ _)) hst
      obtain ⟨h1, h2⟩ := hf.alive hI J hA hJ hcr
      have hA2 := hf.all _ (fun _ _ h => h) hA
      rw [← hf.nextId] at hA2
      exact ih (fun b hb => hs b (List.mem_cons_of_mem _ hb)) h (hf.inv hI) hA2 h2 h1

/-- With handlers that return, a run of stage moves does not end the process. -/
theorem run_returns {T : String → String} {s s1 : Sys} {as : List Action}
    (hs : stageRun as) (h : exec T s as = some s1) (hI : Inv T s)
    (hA : s.All (fun m => m.orig.Returns)) (hcr : s.crashed = none) : s1.crashed = none := by
  have hK : s.All (fun m => m.orig.Keeps T s.nextId (fun _ _ => True)) :=
    ⟨fun m hm => keeps_of_returns (hA.queue m hm),
     fun b hb => keeps_of_returns (hA.senders b hb),
     fun w hw => ⟨fun m hm => keeps_of_returns ((hA.workers w hw).upGot m hm),
       fun m hm => keeps_of_returns ((hA.workers w hw).upSending m hm),
       fun m hm => keeps_of_returns ((hA.workers w hw).apGot m hm),
       fun m hm => keeps_of_returns ((hA.workers w hw).apSending m hm),
       fun m hm => keeps_of_returns ((hA.workers w hw).prGot m hm)⟩⟩
  exact (run_alive hs h hI _ hK trivial hcr).1

/-- What a move of a caller or of the clock leaves alone. -/
theorem outside_facts {T : String → String} {s s1 : Sys} {a : Action}
    (ha : a.isStage = false) (h : step T s a = some s1) :
    s1.inflightIds = s.inflightIds ∧ s1.log = s.log ∧ s1.world = s.world ∧
    (s.closed = true → s1.closed = true ∧ s1.queue = s.queue) := by
  unfold step at h
  split at h
  · cases h
  · cases a <;> simp [Action.isStage] at ha <;> simp only at h
    · cases h
      simp [LaunchWorker, Sys.inflightIds, Worker.ids, Stage.ids]
    · cases h
      unfold MakeRequest
      split
      · simp [Sys.inflightIds]
      · split <;> simp_all [Sys.inflightIds]
    · cases h
      unfold Stop
      split <;> simp_all [Sys.inflightIds]
    · cases h
      simp [Sys.inflightIds]
    · unfold timeout at h
      split at h
      · split at h
        · cases h; simp [Sys.inflightIds]
        · cases h
      · cases h
    · unfold sendPanic at h
      split at h
      · cases h; simp [Sys.inflightIds]
      · cases h

theorem count_consumed (s : Sys) (k : Nat) :
    s.consumedIds.count k + (s.queuedIds.count k + s.blockedIds.count k) = s.occ k := by
  simp only [Sys.consumedIds, Sys.occ, List.count_append]
  omega

theorem count_admitted (s : Sys) (k : Nat) :
    s.admittedIds.count k + s.blockedIds.count k = s.occ k := by
  simp only [Sys.admittedIds, Sys.occ, List.count_append]
  omega

/-- A request that a worker has taken stays taken. -/
theorem step_consumed {T : String → String} {s s1 : Sys} {a : Action}
    (h : step T s a = some s1) : ∀ k ∈ s.consumedIds, k ∈ s1.consumedIds := by
  intro k hk
  by_cases ha : a.isStage = true
  · have hf := stage_facts (T := T) ha h
    have h1 := count_consumed s k
    have h2 := count_consumed s1 k
    have h3 := hf.occ k
    have h4 := hf.waiting k
    have h5 := List.count_pos_iff.mpr hk
    exact List.count_pos_iff.mp (by omega)
  · obtain ⟨h1, h2, _, _⟩ := outside_facts (by simpa using ha) h
    simp only [Sys.consumedIds, Sys.calledIds, h1, h2] at hk ⊢
    exact hk

/-- Once `inCh` is closed it stays closed and nothing more is admitted. -/
theorem step_closed {T : String → String} {s s1 : Sys} {a : Action}
    (h : step T s a = some s1) (hc : s.closed = true) :
    s1.closed = true ∧ ∀ k, s1.admittedIds.count k = s.admittedIds.count k := by
  by_cases ha : a.isStage = true
  · have hf := stage_facts (T := T) ha h
    refine ⟨by rw [hf.closed]; exact hc, ?_⟩
    intro k
    have h1 := count_admitted s k
    have h2 := count_admitted s1 k
    have h3 := hf.occ k
    have h4 := hf.drawn hc
    rw [h4] at h2
    omega
  · obtain ⟨h1, h2, _, h3⟩ := outside_facts (by simpa using ha) h
    obtain ⟨h4, h5⟩ := h3 hc
    refine ⟨h4, ?_⟩
    intro k
    simp only [Sys.admittedIds, Sys.queuedIds, Sys.calledIds, h1, h2, h5]

theorem exec_closed {T : String → String} {s s1 : Sys} {as : List Action}
    (h : exec T s as = some s1) (hc : s.closed = true) :
    s1.closed = true ∧ ∀ k, s1.admittedIds.count k = s.admittedIds.count k := by
  induction as generalizing s with
  | nil =>
    simp only [exec] at h
    cases h
    exact ⟨hc, fun _ => rfl⟩
  | cons a as ih =>
    simp only [exec] at h
    cases hst : step T s a with
    | none => rw [hst] at h; cases h
    | some s2 =>
      rw [hst] at h
      obtain ⟨h1, h2⟩ := step_closed hst hc
      obtain ⟨h3, h4⟩ := ih h h1
      exact ⟨h3, fun k => by rw [h4, h2]⟩

/-- A dead process takes no step. -/
theorem step_crashed {T : String → String} {s : Sys} {c : Crash} (h : s.crashed = some c)
    (a : Action) : step T s a = none := by
  simp [step, h]

/-- Once `uppercase` of an otherwise idle worker holds a request with a string
payload, the five moves of the chain are enabled one after the other and end
with the call of the handler on the composed string. -/
theorem process_run (T : String → String) (s : Sys) (i : Nat) (w : Worker) (m : Msg)
    (x : String) (hcr : s.crashed = none) (hi : s.workers[i]? = some w)
    (hup : w.up = .got m) (hap : w.ap = .waiting) (hpr : w.pr = .waiting)
    (hx : m.msg.Data = .str x) :
    ∃ s1, exec T s (process i) = some s1 ∧
      s1.log = s.log ++ [⟨m.id, m.orig, w.cfg, .prefixOk,
        .str (w.cfg.prefixS ++ T x ++ w.cfg.suffixS),
        (m.msg.Handler (.str (w.cfg.prefixS ++ T x ++ w.cfg.suffixS)) s.world).outcome⟩] ∧
      s1.world = (m.msg.Handler (.str (w.cfg.prefixS ++ T x ++ w.cfg.suffixS)) s.world).world ∧
      s1.queue = s.queue ∧ s1.senders = s.senders ∧
      s1.workers = s.workers.set i { w with up := .waiting } := by
  have hlt : i < s.workers.length := by
    rcases Nat.lt_or_ge i s.workers.length with h | h
    · exact h
    · rw [List.getElem?_eq_none h] at hi
      cases hi
  have hget : ∀ (ws : List Worker) (v : Worker), i < ws.length → (ws.set i v)[i]? = some v := by
    intro ws v h
    simp [List.getElem?_set, h]
  simp [process, exec, step, hcr, uppercase, pass1, append, pass2, prefixStage, hi, hup, hap, hpr,
    hx, PrefixSuffixWorker.uppercase, PrefixSuffixWorker.append, PrefixSuffixWorker.prefix_,
    Sys.setWorker, hget, hlt, invoke, String.append_assoc]

/-- From every state the stage goroutines can run until none of them can move. -/
theorem run_to_quiet (T : String → String) :
    ∀ (n : Nat) (s : Sys), s.weight ≤ n →
      ∃ bs s1, stageRun bs ∧ exec T s bs = some s1 ∧ s1.Quiet T := by
  intro n
  induction n with
  | zero =>
    intro s hs
    refine ⟨[], s, ?_, rfl, ?_⟩
    · intro a ha; cases ha
    · intro a ha
      cases hst : step T s a with
      | none => rfl
      | some s2 =>
        have := (stage_facts (T := T) ha hst).weight
        omega
  | succ n ih =>
    intro s hs
    by_cases hq : s.Quiet T
    · refine ⟨[], s, ?_, rfl, hq⟩
      intro a ha; cases ha
    · unfold Sys.Quiet at hq
      push_neg at hq
      obtain ⟨a, ha, hne⟩ := hq
      cases hst : step T s a with
      | none => exact absurd hst hne
      | some s2 =>
        have hw := (stage_facts (T := T) ha hst).weight
        obtain ⟨bs, s1, h1, h2, h3⟩ := ih s2 (by omega)
        refine ⟨a :: bs, s1, ?_, ?_, h3⟩
        · intro c hc
          rcases List.mem_cons.mp hc with h | h
          · rw [h]; exact ha
          · exact h1 c h
        · simp only [exec, hst, Option.some_bind]
          exact h2

/-- A request that a worker has taken stays taken along every run. -/
theorem exec_consumed {T : String → String} {s s1 : Sys} {as : List Action}
    (h : exec T s as = some s1) : ∀ k ∈ s.consumedIds, k ∈ s1.consumedIds := by
  induction as generalizing s with
  | nil =>
    simp only [exec] at h
    cases h
    exact fun _ hk => hk
  | cons a as ih =>
    simp only [exec] at h
    cases hst : step T s a with
    | none => rw [hst] at h; cases h
    | some s2 =>
      rw [hst] at h
      exact fun k hk => ih h k (step_consumed hst k hk)

/-- In a live state where no stage can move, every request that a worker has
taken has had exactly one call. -/
theorem quiet_called {T : String → String} {s : Sys} (hI : Inv T s) (hcr : s.crashed = none)
    (hq : s.Quiet T) : ∀ k ∈ s.consumedIds, s.calledIds.count k = 1 := by
  intro k hk
  have hnil := quiet_inflight hI hcr hq
  simp only [Sys.consumedIds, hnil, List.nil_append] at hk
  have h1 := hI.once k
  have h2 := List.count_pos_iff.mpr hk
  simp only [Sys.occ] at h1
  omega

/-- In a live state with a worker and `inCh` closed where no stage can move,
every request that was admitted has had exactly one call. -/
theorem quiet_drained {T : String → String} {s : Sys} (hI : Inv T s) (hcr : s.crashed = none)
    (hq : s.Quiet T) (hcl : s.closed = true) (hw : s.workers ≠ []) :
    ∀ k ∈ s.admittedIds, s.calledIds.count k = 1 := by
  intro k hk
  have hqueue := quiet_queue hI hcr hq hcl hw
  have hnil := quiet_inflight hI hcr hq
  have hq0 : s.queuedIds = [] := by simp [Sys.queuedIds, hqueue]
  simp only [Sys.admittedIds, hq0, hnil, List.nil_append] at hk
  have h1 := hI.once k
  have h2 := List.count_pos_iff.mpr hk
  simp only [Sys.occ] at h1
  omega

/-- A waiting `uppercase` can take the head of a non-empty buffer. -/
theorem receive_head (T : String → String) (s : Sys) (i : Nat) (w : Worker) (m : Msg)
    (q : List Msg) (hcr : s.crashed = none) (hi : s.workers[i]? = some w)
    (hup : w.up = .waiting) (hq : s.queue = m :: q) :
    ∃ s1, step T s (.receive i) = some s1 ∧
      s1.workers = s.workers.set i { w with up := .got m } ∧
      s1.log = s.log ∧ s1.world = s.world ∧ s1.crashed = none := by
  simp only [step, hcr, receive, hi, hup, hq]
  split
  · exact ⟨_, rfl, rfl, rfl, rfl, rfl⟩
  · exact ⟨_, rfl, rfl, rfl, rfl, rfl⟩

/-- A request with a bad payload in `uppercase`, a request with a string
payload behind it at the head of the buffer: the first gets `nil` and, if its
handler returns, the second is then served by the same worker. -/
theorem bad_then_good (T : String → String) (s : Sys) (i : Nat) (w : Worker) (m m2 : Msg)
    (q : List Msg) (x : String) (wd : World)
    (hcr : s.crashed = none) (hi : s.workers[i]? = some w)
    (hup : w.up = .got m) (hap : w.ap = .waiting) (hpr : w.pr = .waiting)
    (hbad : ∀ y, m.msg.Data ≠ .str y) (hret : m.msg.Handler .nil s.world = .returned wd)
    (hq : s.queue = m2 :: q) (hx : m2.msg.Data = .str x) :
    ∃ s2, exec T s (.uppercase i :: serve i) = some s2 ∧
      s2.log.map (fun c => (c.id, c.site, c.arg)) =
        s.log.map (fun c => (c.id, c.site, c.arg)) ++
          [(m.id, .uppercaseFail, .nil),
           (m2.id, .prefixOk, .str (w.cfg.prefixS ++ T x ++ w.cfg.suffixS))] := by
  have hlt : i < s.workers.length := by
    rcases Nat.lt_or_ge i s.workers.length with h | h
    · exact h
    · rw [List.getElem?_eq_none h] at hi
      cases hi
  have hbody : w.cfg.uppercase T m.msg = .fail := by
    unfold PrefixSuffixWorker.uppercase
    split
    · rename_i y hy
      exact absurd hy (hbad y)
    · rfl
  have h1 : step T s (.uppercase i) =
      some (invoke (s.setWorker i { w with up := .waiting }) w.cfg .uppercaseFail m .nil) := by
    simp only [step, hcr, uppercase, hi, hup, hbody]
  obtain ⟨s1, hs1⟩ : ∃ s1, s1 =
      invoke (s.setWorker i { w with up := .waiting }) w.cfg .uppercaseFail m .nil := ⟨_, rfl⟩
  have hcr1 : s1.crashed = none := by
    rw [hs1]
    simp only [invoke, Sys.setWorker, hret, HandlerResult.crash]
    exact hcr
  have hi1 : s1.workers[i]? = some { w with up := .waiting } := by
    rw [hs1]
    simp [invoke, Sys.setWorker, List.getElem?_set, hlt]
  have hq1 : s1.queue = m2 :: q := by
    rw [hs1]; exact hq
  have hlog1 : s1.log = s.log ++ [⟨m.id, m.orig, w.cfg, .uppercaseFail, .nil, .returned⟩] := by
    rw [hs1]
    simp [invoke, Sys.setWorker, hret, HandlerResult.outcome]
  obtain ⟨s2, h2, hw2, hl2, _, hcr2⟩ :=
    receive_head T s1 i { w with up := .waiting } m2 q hcr1 hi1 rfl hq1
  have hi2 : s2.workers[i]? = some { w with up := .got m2 } := by
    rw [hw2]
    have : i < s1.workers.length := by
      rcases Nat.lt_or_ge i s1.workers.length with h | h
      · exact h
      · rw [List.getElem?_eq_none h] at hi1
        cases hi1
    simp [List.getElem?_set, this]
  obtain ⟨s3, h3, hl3, _⟩ :=
    process_run T s2 i { w with up := .got m2 } m2 x hcr2 hi2 rfl hap hpr hx
  refine ⟨s3, ?_, ?_⟩
  · simp only [serve, exec, h1, Option.some_bind, ← hs1, h2]
    exact h3
  · rw [hl3, hl2, hlog1]
    simp

theorem Stage.eq_done_of_isDone {st : Stage} (h : st.isDone = true) : st = .done := by
  cases st <;> simp [Stage.isDone] at h ⊢

/-- When every goroutine has returned, no stage can move. -/
theorem quiet_of_retired {T : String → String} {s : Sys} (h : s.retired = true) :
    s.Quiet T := by
  have hall : ∀ (i : Nat) (w : Worker), s.workers[i]? = some w → w.up = .done ∧ w.ap = .done ∧ w.pr = .done := by
    intro i w hi
    have hm := List.getElem?_mem hi
    simp only [Sys.retired, List.all_eq_true, Bool.and_eq_true] at h
    obtain ⟨⟨h1, h2⟩, h3⟩ := h w hm
    exact ⟨Stage.eq_done_of_isDone h1, Stage.eq_done_of_isDone h2, Stage.eq_done_of_isDone h3⟩
  intro a ha
  unfold step
  split
  · rfl
  · cases a <;> simp [Action.isStage] at ha <;> simp only
    all_goals
      rename_i i
      cases hi : s.workers[i]? with
      | none => simp [receive, uppercase, pass1, append, pass2, prefixStage, closeUppercase,
          closeAppend, exitPrefix, hi]
      | some w =>
        obtain ⟨h1, h2, h3⟩ := hall i w hi
        simp [receive, uppercase, pass1, append, pass2, prefixStage, closeUppercase,
          closeAppend, exitPrefix, hi, h1, h2, h3]

/-- A whole `MakeRequest` call on a dispatcher without workers and without
blocked senders: the request goes to the buffer if there is room, and
otherwise the call returns five seconds later and nothing else has changed. -/
theorem alone_step (T : String → String) (s : Sys) (r : Request) (hc : s.closed = false)
    (hcr : s.crashed = none) (hs : s.senders = []) :
    MakeRequestAlone T s r = some
      (if s.queue.length < s.cap then
        { s with queue := s.queue ++ [⟨s.nextId, r, r⟩], nextId := s.nextId + 1 }
      else
        { s with now := s.now + admissionTimeout, nextId := s.nextId + 1 }) := by
  by_cases hl : s.queue.length < s.cap
  · simp [MakeRequestAlone, step, MakeRequest, hc, hcr, hs, hl]
  · simp [MakeRequestAlone, step, MakeRequest, hc, hcr, hs, hl, exec, admissionTimeout,
      List.replicate, timeout]

theorem submitAll_spec (T : String → String) (rs : List Request) :
    ∀ s : Sys, s.closed = false → s.crashed = none → s.senders = [] →
    ∃ s1, submitAll T s rs = some s1 ∧
      s1.queue.map (fun m => m.msg) =
        s.queue.map (fun m => m.msg) ++ rs.take (s.cap - s.queue.length) ∧
      s1.queuedIds = s.queuedIds ++
        (List.range (min rs.length (s.cap - s.queue.length))).map (fun i => s.nextId + i) ∧
      s1.senders = [] ∧ s1.log = s.log ∧ s1.world = s.world ∧ s1.workers = s.workers ∧
      s1.crashed = none ∧ s1.closed = false ∧
      s1.now = s.now + admissionTimeout * (rs.length - (s.cap - s.queue.length)) := by
  induction rs with
  | nil =>
    intro s hc hcr hs
    exact ⟨s, rfl, by simp, by simp, hs, rfl, rfl, rfl, hcr, hc, by simp⟩
  | cons r rs ih =>
    intro s hc hcr hs
    simp only [submitAll, alone_step T s r hc hcr hs]
    by_cases hl : s.queue.length < s.cap
    · simp only [hl, if_true, Option.some_bind]
      obtain ⟨s1, h1, h2, h3, h4, h5, h6, h7, h8, h9, h10⟩ :=
        ih { s with queue := s.queue ++ [⟨s.nextId, r, r⟩], nextId := s.nextId + 1 } hc hcr hs
      refine ⟨s1, h1, ?_, ?_, h4, h5, h6, h7, h8, h9, ?_⟩
      · rw [h2]
        have : s.cap - s.queue.length = (s.cap - (s.queue.length + 1)) + 1 := by omega
        rw [this]
        simp
      · rw [h3]
        have e1 : s.cap - s.queue.length = (s.cap - (s.queue.length + 1)) + 1 := by omega
        have e2 : min (r :: rs).length (s.cap - s.queue.length) =
            min rs.length (s.cap - (s.queue.length + 1)) + 1 := by
          simp only [List.length_cons]; omega
        rw [e2, List.range_succ_eq_map]
        simp [Sys.queuedIds, Nat.add_assoc, Nat.add_comm 1, Function.comp_def]
      · rw [h10]
        simp only [List.length_append, List.length_singleton, List.length_cons]
        have : rs.length + 1 - (s.cap - s.queue.length) =
            rs.length - (s.cap - (s.queue.length + 1)) := by omega
        rw [this]
        simp
    · simp only [hl, if_false, Option.some_bind]
      obtain ⟨s1, h1, h2, h3, h4, h5, h6, h7, h8, h9, h10⟩ :=
        ih { s with now := s.now + admissionTimeout, nextId := s.nextId + 1 } hc hcr hs
      have hz : s.cap - s.queue.length = 0 := by omega
      refine ⟨s1, h1, ?_, ?_, h4, h5, h6, h7, h8, h9, ?_⟩
      · rw [h2]; simp [hz]
      · rw [h3]; simp [hz, Sys.queuedIds]
      · rw [h10]
        simp only [hz, List.length_cons, Nat.sub_zero]
        rw [Nat.mul_succ]
        omega

/-- A handler built by `NewStringRequest` returns as long as its `WaitGroup`
counts at least one more request: with `N` requests counted at the start it
keeps "the counter is `N` minus the number of calls made". -/
theorem keeps_NewStringRequest (T : String → String) (data : String) (wg N : Nat) :
    (NewStringRequest data wg).Keeps T N (fun n w => w.wg wg = (N : Int) - n) := by
  intro cfg n w hn hJ
  have hchain : cfg.chain T (NewStringRequest data wg) =
      .str (cfg.prefixS ++ T data ++ cfg.suffixS) := chain_str T cfg data _
  rw [hchain]
  simp only [NewStringRequest, wgDone]
  have hJ1 : w.wg wg = (N : Int) - n := hJ
  have hpos : ¬ (w.wg wg - 1 < 0) := by omega
  simp only [hpos, if_false]
  refine ⟨_, rfl, ?_⟩
  show Function.update w.wg wg (w.wg wg - 1) wg = (N : Int) - ((n + 1 : Nat) : Int)
  rw [Function.update_same, hJ1]
  push_cast
  omega

/-- In `TestWorkersPool`, when `Stop` has returned, the ten requests are in
the buffer, the three workers are idle, and every handler keeps "the
`WaitGroup` counts ten minus the number of calls made". -/
theorem stoppedTest_keeps :
    stoppedTest.All (fun m => m.orig.Keeps asciiToUpper stoppedTest.nextId
      (fun n w => w.wg 0 = (10 : Int) - n)) := by
  have hq : stoppedTest.queue =
      (List.range 10).map (fun i => (⟨i, testRequest i, testRequest i⟩ : Msg)) := rfl
  have hs : stoppedTest.senders = [] := rfl
  have hw : stoppedTest.workers =
      (List.range 3).map (fun i => (⟨testWorker (i + 1), .waiting, .waiting, .waiting⟩ : Worker)) :=
    rfl
  have hn : stoppedTest.nextId = 10 := rfl
  rw [hn]
  refine ⟨?_, ?_, ?_⟩
  · intro m hm
    rw [hq] at hm
    obtain ⟨i, _, rfl⟩ := List.mem_map.mp hm
    exact keeps_NewStringRequest asciiToUpper _ 0 10
  · intro b hb
    rw [hs] at hb
    cases hb
  · intro w hw1
    rw [hw] at hw1
    obtain ⟨i, _, rfl⟩ := List.mem_map.mp hw1
    constructor <;> intro m hm <;> cases hm

/-- A dead process stays as it is along every run. -/
theorem exec_crashed {T : String → String} {s s1 : Sys} {c : Crash} {bs : List Action}
    (hc : s.crashed = some c) (h : exec T s bs = some s1) : bs = [] ∧ s1 = s := by
  cases bs with
  | nil =>
    simp only [exec] at h
    cases h
    exact ⟨rfl, rfl⟩
  | cons b bs =>
    simp only [exec, step_crashed hc b] at h
    cases h

/-! ## concurrency/workersPool: the claims -/

/-- C1. The chain uppercase, append, prefix of a worker with prefix `P` and
suffix `S` turns a string payload `x` into `P ++ ToUpper x ++ S`. In every
state a program can reach, every call of the handler of a request submitted
with the string payload `x` was made by the success branch of `prefix` with
exactly that string, for the `P` and `S` of the worker that made the call;
and once `uppercase` of an idle worker holds such a request, the five moves
of the chain are enabled and end with that call. -/
theorem chain_result (T : String → String) (world : World) (b : Int) (s0 s : Sys)
    (as : List Action) (h0 : NewDispatcher world b = some s0) (h : exec T s0 as = some s) :
    (∀ (cfg : PrefixSuffixWorker) (x : String) (hd : RequestHandler),
      cfg.chain T ⟨.str x, hd⟩ = .str (cfg.prefixS ++ T x ++ cfg.suffixS)) ∧
    (∀ c ∈ s.log, ∀ x, c.orig.Data = .str x →
      c.site = .prefixOk ∧ c.arg = .str (c.worker.prefixS ++ T x ++ c.worker.suffixS)) ∧
    (∀ i w m x, s.crashed = none → s.workers[i]? = some w →
      w.up = .got m → w.ap = .waiting → w.pr = .waiting → m.orig.Data = .str x →
      ∃ s1, exec T s (process i) = some s1 ∧
        s1.log = s.log ++ [⟨m.id, m.orig, w.cfg, .prefixOk,
          .str (w.cfg.prefixS ++ T x ++ w.cfg.suffixS),
          (m.orig.Handler (.str (w.cfg.prefixS ++ T x ++ w.cfg.suffixS)) s.world).outcome⟩]) := by
  refine ⟨chain_str T, ?_, ?_⟩
  rotate_left
  · intro i w m x hcr hi hup hap hpr hx
    have hf : m.msg = m.orig := ((reach_inv h0 h).data w (List.getElem?_mem hi)).upGot m hup
    obtain ⟨s1, h1, h2, _⟩ := process_run T s i w m x hcr hi hup hap hpr (by rw [hf]; exact hx)
    exact ⟨s1, h1, by rw [h2, hf]⟩
  intro c hc x hx
  have hok := (reach_inv h0 h).calls c hc
  rcases hok.kind with ⟨y, hy, hsite, ha⟩ | ⟨hne, _, _⟩
  · rw [hx] at hy
    cases hy
    exact ⟨hsite, by rw [ha, String.append_assoc]⟩
  · exact absurd hx (hne x)

/-- C1 at scenario A: capacity zero, the worker `"Y-"`, `"-X"`, the payload
`"ab"`: the handler is called once, with `"Y-AB-X"`. -/
theorem chain_result_witness :
    NewDispatcher (wgAdd 0 1 World.start) 0 = some startA ∧
    exec asciiToUpper startA scenarioA = some finalA ∧
    finalA.log.map (fun c => (c.id, c.site, c.arg, c.outcome)) =
      [(0, .prefixOk, .str "Y-AB-X", .returned)] ∧
    finalA.world.stdout = ["Y-AB-X\n"] ∧
    ((∀ (cfg : PrefixSuffixWorker) (x : String) (hd : RequestHandler),
      cfg.chain asciiToUpper ⟨.str x, hd⟩ =
        .str (cfg.prefixS ++ asciiToUpper x ++ cfg.suffixS)) ∧
    (∀ c ∈ finalA.log, ∀ x, c.orig.Data = .str x →
      c.site = .prefixOk ∧
      c.arg = .str (c.worker.prefixS ++ asciiToUpper x ++ c.worker.suffixS))) :=
  have h := chain_result asciiToUpper (wgAdd 0 1 World.start) 0 startA finalA scenarioA rfl rfl
  ⟨rfl, rfl, by decide, by decide, h.1, h.2.1⟩

/-- C2, as the code has it: at most once always, exactly once for a process
that stays alive. In every state a program can reach: no request has had its
handler called twice; every call passed either the fully transformed payload or `nil`
(the first for a string payload, the second for any other); a request still
inside a worker has had no call yet; a request that a worker has taken stays
taken; the stage goroutines can make only `weight` more moves; and when they
can make none and the process is alive, nothing is inside a worker, so that
each request taken from the queue has had exactly one call. When every
handler returns as long as fewer calls than requests have been made, keeping
a condition `J` on the number of calls made and the world (any handler that
always returns does, with the trivial `J`), no run of the stages ends the
process, and the stages can run to such a state, in which every request
taken so far has had exactly one call. A dead process takes no step, so what
is inside a worker then is never called. -/
theorem handler_once (T : String → String) (world : World) (b : Int) (s0 s : Sys)
    (as : List Action) (h0 : NewDispatcher world b = some s0) (h : exec T s0 as = some s) :
    s.calledIds.Nodup ∧
    (∀ c ∈ s.log,
      (∃ x, c.orig.Data = .str x ∧
        c.arg = .str (c.worker.prefixS ++ T x ++ c.worker.suffixS)) ∨
      ((∀ x, c.orig.Data ≠ .str x) ∧ c.arg = .nil)) ∧
    (∀ k ∈ s.inflightIds, k ∉ s.calledIds) ∧
    (∀ a s1, step T s a = some s1 → ∀ k ∈ s.consumedIds, k ∈ s1.consumedIds) ∧
    (∀ bs s1, stageRun bs → exec T s bs = some s1 → bs.length + s1.weight ≤ s.weight) ∧
    (s.crashed = none → s.Quiet T →
      s.inflightIds = [] ∧ ∀ k ∈ s.consumedIds, s.calledIds.count k = 1) ∧
    (∀ J : Nat → World → Prop, s.All (fun m => m.orig.Keeps T s.nextId J) →
      J s.log.length s.world → s.crashed = none →
      (∀ bs s1, stageRun bs → exec T s bs = some s1 → s1.crashed = none) ∧
      ∃ bs s1, stageRun bs ∧ exec T s bs = some s1 ∧ s1.crashed = none ∧ s1.Quiet T ∧
        ∀ k ∈ s.consumedIds, s1.calledIds.count k = 1) ∧
    (s.crashed ≠ none → ∀ bs s1, exec T s bs = some s1 →
      s1 = s ∧ ∀ k ∈ s.inflightIds, s1.calledIds.count k = 0) := by
  have hI := reach_inv h0 h
  have hcount : ∀ k, s.inflightIds.count k + s.calledIds.count k ≤ 1 := by
    intro k
    have := hI.once k
    simp only [Sys.occ] at this
    omega
  refine ⟨?_, ?_, ?_, ?_, ?_, ?_, ?_, ?_⟩
  rotate_left 7
  · intro hcr bs s1 hex
    cases hc : s.crashed with
    | none => exact absurd hc hcr
    | some c =>
      have he := (exec_crashed hc hex).2
      refine ⟨he, ?_⟩
      intro k hk
      rw [he]
      have := hcount k
      have := List.count_pos_iff.mpr hk
      omega
  · rw [List.nodup_iff_count_le_one]
    intro k
    have := hcount k
    omega
  · intro c hc
    rcases (hI.calls c hc).kind with ⟨x, hx, _, ha⟩ | ⟨hne, _, ha⟩
    · exact Or.inl ⟨x, hx, by rw [ha, String.append_assoc]⟩
    · exact Or.inr ⟨hne, ha⟩
  · intro k hk hk1
    have := hcount k
    have := List.count_pos_iff.mpr hk
    have := List.count_pos_iff.mpr hk1
    omega
  · intro a s1 hst
    exact step_consumed hst
  · intro bs s1 hbs hex
    exact (run_facts hbs hex).2.2.2.1
  · intro hcr hq
    exact ⟨quiet_inflight hI hcr hq, quiet_called hI hcr hq⟩
  · intro J hA hJ hcr
    refine ⟨fun bs s1 hbs hex => (run_alive hbs hex hI J hA hJ hcr).1, ?_⟩
    obtain ⟨bs, s1, hbs, hex, hq⟩ := run_to_quiet T s.weight s (Nat.le_refl _)
    have hcr1 := (run_alive hbs hex hI J hA hJ hcr).1
    refine ⟨bs, s1, hbs, hex, hcr1, hq, ?_⟩
    intro k hk
    exact quiet_called (exec_inv hI hex) hcr1 hq k (exec_consumed hex k hk)

/-- C2 at `TestWorkersPool`: after the ten requests have been drained no stage
can move, each of the ten has had exactly one call, and none has had two. -/
theorem handler_once_witness :
    NewDispatcher (wgAdd 0 10 World.start) 100 = some startTest ∧
    exec asciiToUpper startTest (testCalls ++ testDrain) = some finalTest ∧
    finalTest.calledIds = [0, 1, 2, 3, 4, 5, 6, 7, 8, 9] ∧
    finalTest.calledIds.Nodup ∧
    finalTest.crashed = none ∧
    finalTest.inflightIds = [] ∧
    (∀ k ∈ finalTest.consumedIds, finalTest.calledIds.count k = 1) :=
  have h := handler_once asciiToUpper (wgAdd 0 10 World.start) 100 startTest finalTest
    (testCalls ++ testDrain) rfl rfl
  ⟨rfl, rfl, by decide, h.1, by decide, by decide,
    (h.2.2.2.2.2.1 (by decide) (quiet_of_retired (by decide))).2⟩

/-- C2 fails as stated. Two workers: the second has taken request 1 and
brought it to `prefix`; then `prefix` of the first worker calls the handler of
request 0, which panics. Request 1 has been consumed from the queue, its
handler has been called zero times, and the process is dead, so it stays at
zero. -/
theorem consumed_not_called :
    exec asciiToUpper (fresh World.start 2) scenarioLost = some lostFinal ∧
    lostFinal.log.map (fun c => (c.id, c.worker.id, c.site, c.arg, c.outcome)) =
      [(0, 1, .prefixOk, .str "Y-A-X", .panicked)] ∧
    lostFinal.consumedIds = [1, 0] ∧
    lostFinal.calledIds.count 1 = 0 ∧
    lostFinal.crashed = some .handlerPanic ∧
    (∀ a, step asciiToUpper lostFinal a = none) ∧
    (∀ bs s2, exec asciiToUpper lostFinal bs = some s2 → s2.calledIds.count 1 = 0) := by
  have hcr : lostFinal.crashed = some .handlerPanic := by decide
  refine ⟨rfl, by decide, by decide, by decide, hcr, fun a => step_crashed hcr a, ?_⟩
  intro bs s2 hex
  rw [(exec_crashed hcr hex).2]
  decide

/-- C3, as the code has it: the request behind a bad one is served provided the
bad request's handler returns from `Handler(nil)`. In every state a program
can reach: every call for a request whose
payload is not a string was made by `uppercase`, with `nil`; no request that
`uppercase` has sent on, and so none that `append` or `prefix` holds, has such
a payload; when `uppercase` holds such a request its next move is the call
`Handler(nil)`, after which it waits for the next request again, with the
queue, the blocked senders and every other goroutine as they were, and the
process alive if the handler returned; and what any other request's handler
is called with is the chain's result for that request alone, whichever
requests came before it. In particular, when a request with a string payload
is at the head of the buffer behind it and the worker is otherwise idle, the
moves of the worker are enabled that give the bad request `nil` and then
serve that next request with the result of the chain. When no stage can move
any more and the process is alive, every request that was taken from the
queue has had its call. When the handler of the bad request does not return
from `Handler(nil)`, that call ends the process with the buffer as it was. -/
theorem bad_payload_isolated (T : String → String) (world : World) (b : Int) (s0 s : Sys)
    (as : List Action) (h0 : NewDispatcher world b = some s0) (h : exec T s0 as = some s) :
    (∀ c ∈ s.log, (∀ x, c.orig.Data ≠ .str x) → c.site = .uppercaseFail ∧ c.arg = .nil) ∧
    (∀ w ∈ s.workers, ∀ m,
      (w.up = .sending m ∨ w.ap = .got m ∨ w.ap = .sending m ∨ w.pr = .got m) →
      ∃ x, m.orig.Data = .str x) ∧
    (∀ i w m, s.workers[i]? = some w → w.up = .got m → (∀ x, m.orig.Data ≠ .str x) →
      s.crashed = none →
      step T s (.uppercase i) =
        some (invoke (s.setWorker i { w with up := .waiting }) w.cfg .uppercaseFail m .nil) ∧
      ∀ s1, step T s (.uppercase i) = some s1 →
        s1.queue = s.queue ∧ s1.senders = s.senders ∧ s1.closed = s.closed ∧
        s1.workers = s.workers.set i { w with up := .waiting } ∧
        s1.calledIds = s.calledIds ++ [m.id] ∧
        ((∃ w1, m.orig.Handler .nil s.world = .returned w1) → s1.crashed = none)) ∧
    (∀ c ∈ s.log, c.arg = c.worker.chain T c.orig) ∧
    (∀ i w m m2 q x wd, s.crashed = none → s.workers[i]? = some w →
      w.up = .got m → w.ap = .waiting → w.pr = .waiting →
      (∀ y, m.orig.Data ≠ .str y) → m.orig.Handler .nil s.world = .returned wd →
      s.queue = m2 :: q → m2.orig.Data = .str x →
      ∃ s2, exec T s (.uppercase i :: serve i) = some s2 ∧
        s2.log.map (fun c => (c.id, c.site, c.arg)) =
          s.log.map (fun c => (c.id, c.site, c.arg)) ++
            [(m.id, .uppercaseFail, .nil),
             (m2.id, .prefixOk, .str (w.cfg.prefixS ++ T x ++ w.cfg.suffixS))]) ∧
    (s.crashed = none → s.Quiet T → ∀ k ∈ s.consumedIds, k ∈ s.calledIds) ∧
    (∀ i w m, s.workers[i]? = some w → w.up = .got m → (∀ x, m.orig.Data ≠ .str x) →
      s.crashed = none → (∀ w1, m.orig.Handler .nil s.world ≠ .returned w1) →
      ∃ s1, step T s (.uppercase i) = some s1 ∧ s1.crashed ≠ none ∧ s1.queue = s.queue ∧
        ∀ a, step T s1 a = none) := by
  have hI := reach_inv h0 h
  refine ⟨?_, ?_, ?_, ?_, ?_, ?_, ?_⟩
  rotate_left 6
  · intro i w m hi hup hne hcr hnr
    have hf : m.msg = m.orig := (hI.data w (List.getElem?_mem hi)).upGot m hup
    have hbody : w.cfg.uppercase T m.msg = .fail := by
      unfold PrefixSuffixWorker.uppercase
      split
      · rename_i x hx
        rw [hf] at hx
        exact absurd hx (hne x)
      · rfl
    have hstep : step T s (.uppercase i) =
        some (invoke (s.setWorker i { w with up := .waiting }) w.cfg .uppercaseFail m .nil) := by
      simp only [step, hcr, uppercase, hi, hup, hbody]
    have hdead : ∃ c, (invoke (s.setWorker i { w with up := .waiting }) w.cfg
        .uppercaseFail m .nil).crashed = some c := by
      simp only [invoke, Sys.setWorker, hf]
      cases hr : m.orig.Handler .nil s.world with
      | returned w1 => exact absurd hr (hnr w1)
      | panicked w1 => exact ⟨_, rfl⟩
      | exited w1 => exact ⟨_, rfl⟩
    obtain ⟨c, hc⟩ := hdead
    refine ⟨_, hstep, ?_, rfl, fun a => step_crashed hc a⟩
    rw [hc]
    exact Option.some_ne_none c
  · intro c hc hne
    rcases (hI.calls c hc).kind with ⟨x, hx, _, _⟩ | ⟨_, hs, ha⟩
    · exact absurd hx (hne x)
    · exact ⟨hs, ha⟩
  · intro w hw m hm
    have hD := hI.data w hw
    rcases hm with hm | hm | hm | hm
    · obtain ⟨x, hx, _⟩ := hD.upSending m hm
      exact ⟨x, hx⟩
    · obtain ⟨x, hx, _⟩ := hD.apGot m hm
      exact ⟨x, hx⟩
    · obtain ⟨x, hx, _⟩ := hD.apSending m hm
      exact ⟨x, hx⟩
    · obtain ⟨x, hx, _⟩ := hD.prGot m hm
      exact ⟨x, hx⟩
  · intro i w m hi hup hne hcr
    have hD := hI.data w (List.getElem?_mem hi)
    have hf : m.msg = m.orig := hD.upGot m hup
    have hbody : w.cfg.uppercase T m.msg = .fail := by
      unfold PrefixSuffixWorker.uppercase
      split
      · rename_i x hx
        rw [hf] at hx
        exact absurd hx (hne x)
      · rfl
    have hstep : step T s (.uppercase i) =
        some (invoke (s.setWorker i { w with up := .waiting }) w.cfg .uppercaseFail m .nil) := by
      simp only [step, hcr, uppercase, hi, hup, hbody]
    refine ⟨hstep, ?_⟩
    intro s1 hs1
    rw [hstep] at hs1
    cases hs1
    refine ⟨rfl, rfl, rfl, rfl, ?_, ?_⟩
    · simp [invoke, Sys.calledIds, Sys.setWorker]
    · rintro ⟨w1, hw1⟩
      simp only [invoke, hf, Sys.setWorker, hw1, HandlerResult.crash]
      exact hcr
  · intro c hc
    exact call_chain (hI.calls c hc)
  · intro i w m m2 q x wd hcr hi hup hap hpr hbad hret hq hx
    have hf : m.msg = m.orig := (hI.data w (List.getElem?_mem hi)).upGot m hup
    have hf2 : m2.msg = m2.orig := hI.queue m2 (by rw [hq]; exact List.mem_cons_self _ _)
    exact bad_then_good T s i w m m2 q x wd hcr hi hup hap hpr (by rw [hf]; exact hbad)
      (by rw [hf]; exact hret) hq (by rw [hf2]; exact hx)
  · intro hcr hq k hk
    have hnil := quiet_inflight hI hcr hq
    simpa [Sys.consumedIds, hnil] using hk

/-- C3 at scenario B: `uppercase` holds a request with the payload `7`; it
calls the handler with `nil`, and the request `"ab"` queued behind it is then
served by the same worker, with `"Y-AB-X"`. -/
theorem bad_payload_isolated_witness :
    NewDispatcher World.start 2 = some (fresh World.start 2) ∧
    exec asciiToUpper (fresh World.start 2) scenarioB = some heldB ∧
    exec asciiToUpper heldB (.uppercase 0 :: serve 0) = some finalB ∧
    heldB.queuedIds = [1] ∧
    finalB.log.map (fun c => (c.id, c.site, c.arg)) =
      [(0, .uppercaseFail, .nil), (1, .prefixOk, .str "Y-AB-X")] ∧
    finalB.crashed = none ∧
    (∀ c ∈ heldB.log, (∀ x, c.orig.Data ≠ .str x) → c.site = .uppercaseFail ∧ c.arg = .nil) :=
  ⟨rfl, rfl, rfl, by decide, by decide, by decide,
    (bad_payload_isolated asciiToUpper World.start 2 (fresh World.start 2) heldB scenarioB
      rfl rfl).1⟩

/-- C3 fails as stated. The first request has a payload that is not a string
and the handler that `NewStringRequest` builds; a good request is queued
behind it. `uppercase` calls the handler with `nil`, the handler runs
`log.Fatal`, and the process exits: the second request is still in the
buffer, no action is enabled, and its handler is never called. -/
theorem bad_payload_fatal :
    exec asciiToUpper (fresh (wgAdd 0 1 World.start) 2) scenarioFatal = some fatalFinal ∧
    fatalFinal.log.map (fun c => (c.id, c.site, c.arg, c.outcome)) =
      [(0, .uppercaseFail, .nil, .exited)] ∧
    fatalFinal.queuedIds = [1] ∧
    1 ∉ fatalFinal.calledIds ∧
    fatalFinal.crashed = some .handlerExit ∧
    (∀ a, step asciiToUpper fatalFinal a = none) ∧
    (exec asciiToUpper fatalFinal (serve 0)).isNone = true ∧
    (∀ bs s2, exec asciiToUpper fatalFinal bs = some s2 → 1 ∉ s2.calledIds) := by
  have hcr : fatalFinal.crashed = some .handlerExit := by decide
  refine ⟨rfl, by decide, by decide, by decide, hcr, fun a => step_crashed hcr a, ?_, ?_⟩
  · simp [serve, exec, step_crashed hcr]
  · intro bs s2 hex
    rw [(exec_crashed hcr hex).2]
    decide

/-- C4, as the code has it: the drain is guaranteed for a process that stays
alive, which a `MakeRequest` call blocked at `Stop` or made after it ends. In
every state a program can reach in which `inCh` is closed: a
`MakeRequest` call panics and places nothing on the queue; along every further
run the channel stays closed and the requests admitted stay the same; every
run of the stage goroutines is at most `weight` long; and when, with at least
one worker attached, such a run ends alive in a state where no stage can
move, every request admitted before has had its handler called exactly once.
When every handler returns as long as fewer calls than requests have been
made, keeping a condition `J` on the number of calls made and the world (any
handler that always returns does, with the trivial `J`), such a run always
ends alive, and with a worker attached the stages can run to such a state.
More generally, after any run whatever from the closed state, if the process
is alive, a worker is attached and no stage can move, every request admitted
before has had its handler called exactly once. A call blocked on `inCh`
panics, and that ends the process. -/
theorem drain_after_stop (T : String → String) (world : World) (b : Int) (s0 s : Sys)
    (as : List Action) (h0 : NewDispatcher world b = some s0) (h : exec T s0 as = some s)
    (hcl : s.closed = true) :
    (∀ r s1, step T s (.MakeRequest r) = some s1 →
      s1.crashed = some .sendOnClosed ∧ s1.queue = s.queue ∧ s1.senders = s.senders) ∧
    (∀ bs s1, exec T s bs = some s1 →
      s1.closed = true ∧ ∀ k, k ∈ s1.admittedIds ↔ k ∈ s.admittedIds) ∧
    (∀ bs s1, stageRun bs → exec T s bs = some s1 →
      bs.length + s1.weight ≤ s.weight ∧
      (s.workers ≠ [] → s1.crashed = none → s1.Quiet T →
        ∀ k ∈ s.admittedIds, s1.calledIds.count k = 1)) ∧
    (∀ J : Nat → World → Prop, s.All (fun m => m.orig.Keeps T s.nextId J) →
      J s.log.length s.world → s.crashed = none →
      (∀ bs s1, stageRun bs → exec T s bs = some s1 → s1.crashed = none) ∧
      (s.workers ≠ [] →
        ∃ bs s1, stageRun bs ∧ exec T s bs = some s1 ∧ s1.crashed = none ∧ s1.Quiet T ∧
          ∀ k ∈ s.admittedIds, s1.calledIds.count k = 1)) ∧
    (∀ bs s1, exec T s bs = some s1 → s1.workers ≠ [] → s1.crashed = none → s1.Quiet T →
      ∀ k ∈ s.admittedIds, s1.calledIds.count k = 1) ∧
    (s.crashed = none → s.senders ≠ [] →
      ∃ s1, step T s .sendPanic = some s1 ∧ s1.crashed = some .sendOnClosed ∧
        s1.log = s.log ∧ ∀ a, step T s1 a = none) := by
  have hI := reach_inv h0 h
  have hdrain : ∀ bs s1, stageRun bs → exec T s bs = some s1 → s.workers ≠ [] →
      s1.crashed = none → s1.Quiet T → ∀ k ∈ s.admittedIds, s1.calledIds.count k = 1 := by
    intro bs s1 hbs hex hw hcr hq k hk
    obtain ⟨hc1, hadm⟩ := exec_closed hex hcl
    have hwork : s1.workers ≠ [] := by
      intro hnil
      have := (run_facts hbs hex).2.2.2.2.2.2
      rw [hnil] at this
      exact hw (List.eq_nil_of_length_eq_zero this.symm)
    have hk1 : k ∈ s1.admittedIds := by
      rw [← List.count_pos_iff, hadm k]
      exact List.count_pos_iff.mpr hk
    exact quiet_drained (exec_inv hI hex) hcr hq hc1 hwork k hk1
  refine ⟨?_, ?_, ?_, ?_, ?_, ?_⟩
  rotate_left 4
  · intro bs s1 hex hw hcr hq k hk
    obtain ⟨hc1, hadm⟩ := exec_closed hex hcl
    have hk1 : k ∈ s1.admittedIds := by
      rw [← List.count_pos_iff, hadm k]
      exact List.count_pos_iff.mpr hk
    exact quiet_drained (exec_inv hI hex) hcr hq hc1 hw k hk1
  · intro hcr hs
    obtain ⟨b, bs, hbs⟩ := List.exists_cons_of_ne_nil hs
    refine ⟨{ s with crashed := some .sendOnClosed }, ?_, rfl, rfl, fun a => step_crashed rfl a⟩
    simp [step, hcr, sendPanic, hcl, hbs]
  · intro r s1 hst
    unfold step at hst
    split at hst
    · cases hst
    · simp only [MakeRequest, hcl, if_true] at hst
      cases hst
      exact ⟨rfl, rfl, rfl⟩
  · intro bs s1 hex
    obtain ⟨h1, h2⟩ := exec_closed hex hcl
    refine ⟨h1, ?_⟩
    intro k
    rw [← List.count_pos_iff, ← List.count_pos_iff (l := s.admittedIds), h2]
  · intro bs s1 hbs hex
    refine ⟨(run_facts hbs hex).2.2.2.1, ?_⟩
    intro hw hcr hq k hk
    exact hdrain bs s1 hbs hex hw hcr hq k hk
  · intro J hA hJ hcr
    refine ⟨fun bs s1 hbs hex => (run_alive hbs hex hI J hA hJ hcr).1, ?_⟩
    intro hw
    obtain ⟨bs, s1, hbs, hex, hq⟩ := run_to_quiet T s.weight s (Nat.le_refl _)
    have hcr1 := (run_alive hbs hex hI J hA hJ hcr).1
    exact ⟨bs, s1, hbs, hex, hcr1, hq, hdrain bs s1 hbs hex hw hcr1 hq⟩

/-- C4 at `TestWorkersPool`: three workers, capacity 100, ten string requests,
then `Stop`: the ten requests are on the queue when `Stop` returns. However
the workers are scheduled from there, no handler panics or exits, and when
no stage can move any more all ten handlers have run, each once. On one such
schedule, `testDrain`, the `WaitGroup` is back at zero and ten lines are on
standard output. -/
theorem drain_after_stop_witness :
    NewDispatcher (wgAdd 0 10 World.start) 100 = some startTest ∧
    exec asciiToUpper startTest testCalls = some stoppedTest ∧
    stoppedTest.closed = true ∧
    stoppedTest.workers.length = 3 ∧
    stoppedTest.admittedIds = [0, 1, 2, 3, 4, 5, 6, 7, 8, 9] ∧
    exec asciiToUpper stoppedTest testDrain = some finalTest ∧
    finalTest.crashed = none ∧
    finalTest.world.wg 0 = 0 ∧
    finalTest.world.stdout.length = 10 ∧
    testDrain.length + finalTest.weight ≤ stoppedTest.weight ∧
    (∀ k ∈ stoppedTest.admittedIds, finalTest.calledIds.count k = 1) ∧
    (∀ bs s1, stageRun bs → exec asciiToUpper stoppedTest bs = some s1 →
      bs.length ≤ stoppedTest.weight ∧ s1.crashed = none ∧
      (s1.Quiet asciiToUpper → ∀ k ∈ stoppedTest.admittedIds, s1.calledIds.count k = 1)) :=
  have hall := drain_after_stop asciiToUpper (wgAdd 0 10 World.start) 100 startTest stoppedTest
    testCalls rfl rfl rfl
  have hne : stoppedTest.workers ≠ [] :=
    fun hn => absurd (congrArg List.length hn) (by decide)
  have h := hall.2.2.1 testDrain finalTest (by unfold stageRun; decide) rfl
  have hlive := (hall.2.2.2.1 (fun n w => w.wg 0 = (10 : Int) - n) stoppedTest_keeps
    (by decide) (by decide)).1
  ⟨rfl, rfl, rfl, by decide, by decide, rfl, by decide, by decide, by decide, h.1,
    h.2 hne (by decide) (quiet_of_retired (by decide)),
    fun bs s1 hbs hex =>
      ⟨by have := (hall.2.2.1 bs s1 hbs hex).1; omega, hlive bs s1 hbs hex,
        fun hq => (hall.2.2.1 bs s1 hbs hex).2 hne (hlive bs s1 hbs hex) hq⟩⟩

/-- C4 fails as stated. Capacity one, one worker, request 0 admitted, then
`Stop`. A `MakeRequest` call made after `Stop` panics on the closed channel;
so does a call that was blocked on the full buffer when `Stop` was called.
Either way the process is dead with request 0 admitted before `Stop` and its
handler never called. -/
theorem drain_lost_on_send_panic :
    exec asciiToUpper (fresh World.start 1) callsLate = some stoppedLate ∧
    stoppedLate.closed = true ∧ stoppedLate.workers.length = 1 ∧
    stoppedLate.admittedIds = [0] ∧
    step asciiToUpper stoppedLate (.MakeRequest ⟨.str "b", idleHandler⟩) = some lateFinal ∧
    lateFinal.crashed = some .sendOnClosed ∧ lateFinal.calledIds = [] ∧
    (∀ bs s2, exec asciiToUpper lateFinal bs = some s2 → 0 ∉ s2.calledIds) ∧
    exec asciiToUpper (fresh World.start 1) callsBlocked = some stoppedBlocked ∧
    stoppedBlocked.closed = true ∧ stoppedBlocked.workers.length = 1 ∧
    stoppedBlocked.admittedIds = [0] ∧ stoppedBlocked.blockedIds = [1] ∧
    step asciiToUpper stoppedBlocked .sendPanic = some blockedFinal ∧
    blockedFinal.crashed = some .sendOnClosed ∧ blockedFinal.calledIds = [] ∧
    (∀ bs s2, exec asciiToUpper blockedFinal bs = some s2 → 0 ∉ s2.calledIds) := by
  have h1 : lateFinal.crashed = some .sendOnClosed := by decide
  have h2 : blockedFinal.crashed = some .sendOnClosed := by decide
  refine ⟨rfl, by decide, by decide, by decide, rfl, h1, by decide, ?_,
    rfl, by decide, by decide, by decide, by decide, rfl, h2, by decide, ?_⟩
  · intro bs s2 hex
    rw [(exec_crashed h1 hex).2]
    decide
  · intro bs s2 hex
    rw [(exec_crashed h2 hex).2]
    decide

/-- C5. On a dispatcher of capacity `C` without workers, a caller that makes
the requests `rs` one after the other ends with the first `C` of them in the
buffer, in order; every later call has returned five seconds after it was
made, by the timeout branch, leaving the buffer as it was; no handler has
been called and the world is untouched. And in any state without workers, a
move other than a Dispatcher call changes neither the buffer nor the log nor
the world, and it takes a blocked call off `inCh` only as the timeout of that
call, five seconds or more after the call was made. -/
theorem timeout_drop (T : String → String) (world : World) (b : Int) (s0 : Sys)
    (rs : List Request) (h0 : NewDispatcher world b = some s0) :
    (∃ s1, submitAll T s0 rs = some s1 ∧
      s1.queue.map (fun m => m.msg) = rs.take b.toNat ∧
      s1.queuedIds = List.range (min rs.length b.toNat) ∧
      s1.senders = [] ∧ s1.log = [] ∧ s1.world = world ∧ s1.crashed = none ∧
      s1.now = admissionTimeout * (rs.length - b.toNat)) ∧
    (∀ (s s1 : Sys) (a : Action), s.workers = [] → step T s a = some s1 →
      (∀ w, a ≠ .LaunchWorker w) → (∀ r, a ≠ .MakeRequest r) → a ≠ .Stop →
      s1.queue = s.queue ∧ s1.log = s.log ∧ s1.world = s.world ∧
      (s1.senders ≠ s.senders →
        ∃ k bl, a = .timeout k ∧ s.senders[k]? = some bl ∧
          bl.since + admissionTimeout ≤ s.now ∧ s1.senders = s.senders.eraseIdx k)) := by
  constructor
  · unfold NewDispatcher at h0
    split at h0
    · cases h0
    · cases h0
      obtain ⟨s1, h1, h2, h3, h4, h5, h6, _, h8, _, h10⟩ :=
        submitAll_spec T rs (fresh world b.toNat) rfl rfl rfl
      refine ⟨s1, h1, ?_, ?_, h4, h5, h6, h8, ?_⟩
      · simpa [fresh] using h2
      · simpa [fresh, Sys.queuedIds] using h3
      · simpa [fresh] using h10
  · intro s s1 a hw hst hLW hMR hStop
    unfold step at hst
    split at hst
    · cases hst
    · cases a <;> simp only at hst
      · exact absurd rfl (hLW _)
      · exact absurd rfl (hMR _)
      · exact absurd rfl hStop
      · cases hst
        exact ⟨rfl, rfl, rfl, fun h => absurd rfl h⟩
      · rename_i k
        unfold timeout at hst
        split at hst
        · rename_i bl hbl
          split at hst
          · rename_i hle
            cases hst
            exact ⟨rfl, rfl, rfl, fun _ => ⟨k, bl, rfl, hbl, hle, rfl⟩⟩
          · cases hst
        · cases hst
      · unfold sendPanic at hst
        split at hst
        · cases hst
          exact ⟨rfl, rfl, rfl, fun h => absurd rfl h⟩
        · cases hst
      all_goals
        simp [receive, uppercase, pass1, append, pass2, prefixStage, closeUppercase,
          closeAppend, exitPrefix, hw] at hst

/-- C5 at scenario C: capacity two, no worker, three requests: two are in the
buffer, the third call has returned after five seconds, its request is
nowhere, and no handler has run. -/
theorem timeout_drop_witness :
    NewDispatcher World.start 2 = some (fresh World.start 2) ∧
    submitAll asciiToUpper (fresh World.start 2) requestsC = some finalC ∧
    finalC.queuedIds = [0, 1] ∧ finalC.blockedIds = [] ∧ finalC.inflightIds = [] ∧
    finalC.calledIds = [] ∧ finalC.now = 5 ∧ finalC.nextId = 3 ∧
    (∃ s1, submitAll asciiToUpper (fresh World.start 2) requestsC = some s1 ∧
      s1.queue.map (fun m => m.msg) = requestsC.take (2 : Int).toNat ∧
      s1.queuedIds = List.range (min requestsC.length (2 : Int).toNat) ∧
      s1.senders = [] ∧ s1.log = [] ∧ s1.world = World.start ∧ s1.crashed = none ∧
      s1.now = admissionTimeout * (requestsC.length - (2 : Int).toNat)) :=
  ⟨rfl, rfl, by decide, by decide, by decide, by decide, by decide, by decide,
    (timeout_drop asciiToUpper World.start 2 (fresh World.start 2) requestsC rfl).1⟩

/-- C6. The first `Stop` on an open dispatcher returns normally and closes
`inCh`, leaving the buffer as it is. From then on the channel stays closed
whatever happens, and every later `Stop` panics with a close of a closed
channel: that process is dead and takes no further step. -/
theorem stop_twice (T : String → String) (s : Sys) (hcr : s.crashed = none)
    (hop : s.closed = false) :
    ∃ s1, step T s .Stop = some s1 ∧ s1.crashed = none ∧ s1.closed = true ∧
      s1.queue = s.queue ∧
      ∀ as s2, exec T s1 as = some s2 →
        s2.closed = true ∧
        (s2.crashed = none →
          ∃ s3, step T s2 .Stop = some s3 ∧ s3.crashed = some .closeOfClosed ∧
            ∀ a, step T s3 a = none) := by
  refine ⟨{ s with closed := true }, ?_, hcr, rfl, rfl, ?_⟩
  · simp [step, hcr, Stop, hop]
  · intro as s2 hex
    have hc2 := (exec_closed hex rfl).1
    refine ⟨hc2, ?_⟩
    intro hcr2
    refine ⟨{ s2 with crashed := some .closeOfClosed }, ?_, rfl, ?_⟩
    · simp [step, hcr2, Stop, hc2]
    · intro a
      exact step_crashed rfl a

/-- C6 on a fresh dispatcher: the first `Stop` returns, the second panics. -/
theorem stop_twice_witness :
    (fresh World.start 0).crashed = none ∧ (fresh World.start 0).closed = false ∧
    (exec asciiToUpper (fresh World.start 0) [.Stop]).map (fun s => (s.closed, s.crashed)) =
      some (true, none) ∧
    (exec asciiToUpper (fresh World.start 0) [.Stop, .Stop]).map (fun s => (s.closed, s.crashed)) =
      some (true, some .closeOfClosed) ∧
    (exec asciiToUpper (fresh World.start 0) [.Stop, .Stop, .tick]).isNone = true ∧
    (∃ s1, step asciiToUpper (fresh World.start 0) .Stop = some s1 ∧ s1.crashed = none ∧
      s1.closed = true ∧ s1.queue = (fresh World.start 0).queue ∧
      ∀ as s2, exec asciiToUpper s1 as = some s2 →
        s2.closed = true ∧
        (s2.crashed = none →
          ∃ s3, step asciiToUpper s2 .Stop = some s3 ∧ s3.crashed = some .closeOfClosed ∧
            ∀ a, step asciiToUpper s3 a = none)) :=
  ⟨rfl, rfl, by decide, by decide, by decide,
    stop_twice asciiToUpper (fresh World.start 0) rfl rfl⟩

/-- C7, as the code has it. No stage recovers from a panic: when a move of
the system records a handler call that panicked, the process is dead after
that move. It takes no further step, so no request that is still queued or
inside a worker has its handler called. -/
theorem handler_panic_fatal (T : String → String) (s s1 : Sys) (a : Action) (c : Call)
    (h : step T s a = some s1) (hlog : s1.log = s.log ++ [c]) (hp : c.outcome = .panicked) :
    s1.crashed = some .handlerPanic ∧ (∀ b, step T s1 b = none) ∧
    ∀ bs s2, exec T s1 bs = some s2 → bs = [] ∧ s2 = s1 := by
  have hcrash : s1.crashed = some .handlerPanic := by
    have hlen : s1.log ≠ s.log := by
      intro he
      have := congrArg List.length he
      rw [hlog] at this
      simp at this
    by_cases ha : a.isStage = true
    · rcases (stage_facts (T := T) ha h).log with ⟨h1, _⟩ | ⟨c1, h1, h2⟩
      · exact absurd h1 hlen
      · rw [hlog] at h1
        have hc : c = c1 := by simpa using h1
        rw [h2, ← hc, hp]
        rfl
    · exact absurd (outside_facts (by simpa using ha) h).2.1 hlen
  refine ⟨hcrash, fun b => step_crashed hcrash b, ?_⟩
  intro bs s2 hex
  cases bs with
  | nil =>
    simp only [exec] at hex
    cases hex
    exact ⟨rfl, rfl⟩
  | cons b bs =>
    simp only [exec, step_crashed hcrash b] at hex
    cases hex

/-- C7 on a concrete run: `prefix` calls a handler that panics while
`uppercase` holds the next request. -/
theorem handler_panic_fatal_witness :
    step asciiToUpper beforePanic (.prefixStage 0) = some afterPanic ∧
    afterPanic.log.map (fun c => (c.id, c.outcome)) = [(0, .panicked)] ∧
    afterPanic.crashed = some .handlerPanic ∧
    (afterPanic.crashed = some .handlerPanic ∧ (∀ b, step asciiToUpper afterPanic b = none) ∧
      ∀ bs s2, exec asciiToUpper afterPanic bs = some s2 → bs = [] ∧ s2 = afterPanic) :=
  ⟨rfl, by decide, by decide,
    handler_panic_fatal asciiToUpper beforePanic afterPanic (.prefixStage 0)
      ⟨0, ⟨.str "a", panicHandler⟩, workerA, .prefixOk, .str "Y-A-X", .panicked⟩ rfl rfl rfl⟩

/-- C7 fails as stated. A request whose handler panics is followed by a good
request; one worker. When `prefix` has called the panicking handler, the
second request is inside the worker, its handler has not been called, and no
action of the system is enabled any more, so it never is. -/
theorem handler_panic_not_isolated :
    exec asciiToUpper (fresh World.start 2) (scenarioPanic ++ [.prefixStage 0]) =
      some afterPanic ∧
    afterPanic.log.map (fun c => (c.id, c.site, c.arg, c.outcome)) =
      [(0, .prefixOk, .str "Y-A-X", .panicked)] ∧
    afterPanic.inflightIds = [1] ∧ 1 ∉ afterPanic.calledIds ∧
    afterPanic.crashed = some .handlerPanic ∧
    (∀ a, step asciiToUpper afterPanic a = none) ∧
    (∀ bs s2, exec asciiToUpper afterPanic bs = some s2 → 1 ∉ s2.calledIds) := by
  have hcr : afterPanic.crashed = some .handlerPanic := by decide
  refine ⟨rfl, by decide, by decide, by decide, hcr, fun a => step_crashed hcr a, ?_⟩
  intro bs s2 hex
  cases bs with
  | nil =>
    simp only [exec] at hex
    cases hex
    decide
  | cons b bs =>
    simp only [exec, step_crashed hcr b] at hex
    cases hex

/-- C10. In every state a program can reach, the message that `append` or
`prefix` holds carries a string, so that their loop bodies do not take the
failure branch; no recorded call was made by the failure branch of `append`
or of `prefix`; and every call of a handler built by `NewStringRequest` passed
a string and did not end in `log.Fatal`. -/
theorem later_stages_see_strings (T : String → String) (world : World) (b : Int)
    (s0 s : Sys) (as : List Action) (h0 : NewDispatcher world b = some s0)
    (h : exec T s0 as = some s) :
    (∀ w ∈ s.workers, ∀ m, w.ap = .got m →
      (∃ u, m.msg.Data = .str u) ∧ w.cfg.append m.msg ≠ .fail) ∧
    (∀ w ∈ s.workers, ∀ m, w.pr = .got m →
      (∃ u, m.msg.Data = .str u) ∧ w.cfg.prefix_ m.msg ≠ none) ∧
    (∀ c ∈ s.log, c.site ≠ .appendFail ∧ c.site ≠ .prefixFail) ∧
    (∀ c ∈ s.log, ∀ data wg, c.orig = NewStringRequest data wg →
      (∃ u, c.arg = .str u) ∧ c.site = .prefixOk ∧ c.outcome ≠ .exited) := by
  have hI := reach_inv h0 h
  refine ⟨?_, ?_, ?_, ?_⟩
  · intro w hw m hm
    obtain ⟨x, _, hd, _⟩ := (hI.data w hw).apGot m hm
    refine ⟨⟨_, hd⟩, ?_⟩
    intro hfail
    exact append_fail hfail _ hd
  · intro w hw m hm
    obtain ⟨x, _, hd, _⟩ := (hI.data w hw).prGot m hm
    refine ⟨⟨_, hd⟩, ?_⟩
    intro hfail
    exact prefix_none hfail _ hd
  · intro c hc
    rcases (hI.calls c hc).kind with ⟨_, _, hs, _⟩ | ⟨_, hs, _⟩ <;> rw [hs] <;> simp
  · intro c hc data wg horig
    have hok := hI.calls c hc
    rcases hok.kind with ⟨x, _, hs, ha⟩ | ⟨hne, _, _⟩
    · refine ⟨⟨_, ha⟩, hs, ?_⟩
      obtain ⟨w, hw⟩ := hok.ran
      rw [hw, horig, ha]
      simp only [NewStringRequest, wgDone]
      split <;> simp [HandlerResult.outcome]
    · exact absurd (by rw [horig]; rfl) (hne data)

/-- C10 at `TestWorkersPool`: all ten handlers of `NewStringRequest` were
called by the success branch of `prefix` and returned. -/
theorem later_stages_see_strings_witness :
    NewDispatcher (wgAdd 0 10 World.start) 100 = some startTest ∧
    exec asciiToUpper startTest (testCalls ++ testDrain) = some finalTest ∧
    finalTest.log.map (fun c => (c.site, c.outcome)) =
      List.replicate 10 (.prefixOk, .returned) ∧
    (∀ c ∈ finalTest.log, c.site ≠ .appendFail ∧ c.site ≠ .prefixFail) :=
  ⟨rfl, rfl, by decide,
    (later_stages_see_strings asciiToUpper (wgAdd 0 10 World.start) 100 startTest finalTest
      (testCalls ++ testDrain) rfl rfl).2.2.1⟩

end WorkersPool

end Patterns
